import Mathlib

/-!
Verification of the Rearc-Data-Quest ingestion logic.

Part 1 models `lambda_handlers/ingest_lambda/part1/bls_s3_sync.py`
(class `BLSSync`): the reconciliation of an S3 bucket scope against a
remote file listing, using content digests to decide uploads and a
seen-name set to decide deletions.

Part 2 models `lambda_handlers/ingest_lambda/part2/datausa_sync.py`
(class `DataUSASync`): fetch-and-store of two JSON documents.

Network and S3 transport are environment capabilities: an `Env` record
supplies the remote listing, per-URL fetch results, per-name put/delete
success, and the content-digest function (`hashlib.md5` hex digest in the
source, `hash_streamed_file`).  The bucket scope is modelled at the level
of stripped names (a finite association list from name to content), which
is the view `sync` itself works with; the prefix-stripping performed by
`get_s3_file_map` on raw keys (Python `str.replace`) is modelled
separately on raw keys below.
-/

/-- Logical file name (the part of the S3 key after the prefix). -/
abbrev Name := String

/-- File content as a byte sequence. -/
abbrev Content := List Nat

/-- A content digest (hex string of the MD5 in the source). -/
abbrev Digest := String

/-- The environment of one `BLSSync.sync()` run: the remote listing
(`get_bls_file_list`; `none` models `raise_for_status` failing), whether
the store listing call succeeds (`get_s3_file_map` pagination), the
per-URL fetch result (`none` models a failed `requests.get` /
`raise_for_status` for that URL), per-name success of the upload block
(re-fetch plus `upload_fileobj`) and of `delete_object`, and the digest
function (`hash_streamed_file`).  Fetch is deterministic within a run:
remote content does not change while the run executes. -/
structure Env where
  remoteListing : Option (List String)
  storeListOk : Bool
  fetch : String → Option Content
  putOk : Name → Bool
  deleteOk : Name → Bool
  hash : Content → Digest

/-- Split a character list on a separator, Python `str.split` style. -/
def splitOnChar (sep : Char) : List Char → List (List Char)
  | [] => [[]]
  | c :: rest =>
    let r := splitOnChar sep rest
    if c = sep then [] :: r
    else
      match r with
      | [] => [[c]]
      | h :: t => (c :: h) :: t

/-- `url.split("/")[-1]` from `BLSSync.sync` (line 126). -/
def filenameOf (url : String) : Name :=
  ⟨(splitOnChar '/' url.data).getLastD []⟩

/-- First-match lookup in an association list. -/
def lookupN {α β : Type} [DecidableEq α] : List (α × β) → α → Option β
  | [], _ => none
  | p :: r, n => if p.1 = n then some p.2 else lookupN r n

/-- Python `dict` assignment `m[k] = v` (and S3 `put` at an existing or
fresh key): overwrite in place if the key is present, else append. -/
def dictInsert {α β : Type} [DecidableEq α] (m : List (α × β)) (k : α) (v : β) :
    List (α × β) :=
  if k ∈ m.map Prod.fst then m.map (fun p => if p.1 = k then (k, v) else p)
  else m ++ [(k, v)]

/-- S3 `delete_object`: remove the entry stored under a key. -/
def eraseName {α β : Type} [DecidableEq α] (m : List (α × β)) (k : α) :
    List (α × β) :=
  m.filter (fun p => decide (p.1 ≠ k))

/-- The name-to-digest view of the bucket scope built by
`BLSSync.get_s3_file_map` (lines 78-84), at the level of stripped names:
each stored object contributes its name mapped to the digest of its
content (the object's ETag). -/
def s3FileMap (env : Env) (store : List (Name × Content)) : List (Name × Digest) :=
  store.foldl (fun m p => dictInsert m p.1 (env.hash p.2)) []

/-- State threaded through the per-URL loop of `BLSSync.sync`:
the bucket contents, the `current_filenames` set, and the trace of
successful uploads in order. -/
structure LoopSt where
  store : List (Name × Content)
  seen : List Name
  puts : List (Name × Content)

/-- Python `set.add` on the `current_filenames` accumulator. -/
def insertSeen (s : List Name) (n : Name) : List Name :=
  if n ∈ s then s else s ++ [n]

/-- The upload decision of `BLSSync.sync` line 140:
`filename not in s3_files or s3_files[filename] != file_hash`. -/
def needUpload (s3 : List (Name × Digest)) (n : Name) (h : Digest) : Bool :=
  match lookupN s3 n with
  | none => true
  | some d => decide (d ≠ h)

/-- One iteration of the `for url in bls_urls` loop of `BLSSync.sync`
(lines 125-154): record the filename as seen; try to fetch and hash the
URL (a failure is caught and the loop continues); if the name is new or
its stored digest differs, attempt the upload block (re-fetch and
`upload_fileobj`; a failure there is caught and the loop continues),
recording a successful put in the trace; otherwise skip. -/
def processUrl (env : Env) (s3 : List (Name × Digest)) (st : LoopSt)
    (url : String) : LoopSt :=
  let n := filenameOf url
  let st1 : LoopSt := { st with seen := insertSeen st.seen n }
  match env.fetch url with
  | none => st1
  | some c =>
    if needUpload s3 n (env.hash c) then
      if env.putOk n then
        { st1 with
          store := dictInsert st1.store n c
          puts := st1.puts ++ [(n, c)] }
      else st1
    else st1

/-- The `for old_file in s3_files` delete loop of `BLSSync.sync`
(lines 157-160).  There is no exception handling around `delete_object`
in the source: a failing delete raises out of `sync`, so the loop aborts
with the store as mutated so far (`false` in the first component). -/
def runDeletes (env : Env) (current : List Name) :
    List Name → List (Name × Content) → List Name →
    Bool × List (Name × Content) × List Name
  | [], store, dels => (true, store, dels)
  | n :: rest, store, dels =>
    if n ∈ current then runDeletes env current rest store dels
    else if env.deleteOk n then
      runDeletes env current rest (eraseName store n) (dels ++ [n])
    else (false, store, dels)

/-- The observable outcome of one `BLSSync.sync()` run: whether the run
returned normally (`ok = false` means an exception propagated out of
`sync`), the final bucket scope, the `current_filenames` set, and the
traces of successful puts and deletes in order. -/
structure SyncOutcome where
  ok : Bool
  store : List (Name × Content)
  seen : List Name
  puts : List (Name × Content)
  deletes : List Name

/-- `BLSSync.sync` (lines 104-162).  The listing calls come first: a
failing `get_bls_file_list` or `get_s3_file_map` raises before any
mutation.  Then the per-URL loop runs against the snapshot `s3_files`
map, and finally the delete loop removes stored names not recorded in
`current_filenames`. -/
def sync (env : Env) (store0 : List (Name × Content)) : SyncOutcome :=
  match env.remoteListing with
  | none => ⟨false, store0, [], [], []⟩
  | some urls =>
    if env.storeListOk then
      let s3 := s3FileMap env store0
      let st := urls.foldl (processUrl env s3) ⟨store0, [], []⟩
      let r := runDeletes env st.seen (s3.map Prod.fst) st.store []
      ⟨r.1, r.2.1, st.seen, st.puts, r.2.2⟩
    else ⟨false, store0, [], [], []⟩

/-- The put the processing of one URL performs, if any, as a function of
the snapshot map only (the decision at line 140 reads the snapshot
`s3_files`, never the evolving bucket). -/
def uploadOf (env : Env) (s3 : List (Name × Digest)) (url : String) :
    Option (Name × Content) :=
  match env.fetch url with
  | none => none
  | some c =>
    if needUpload s3 (filenameOf url) (env.hash c) && env.putOk (filenameOf url)
    then some (filenameOf url, c) else none

/-- All puts performed by the loop over a URL list, in order. -/
def uploadsOf (env : Env) (s3 : List (Name × Digest)) (urls : List String) :
    List (Name × Content) :=
  urls.filterMap (uploadOf env s3)

/-- The last put targeting a given name in a put trace. -/
def lastPut (l : List (Name × Content)) (n : Name) : Option Content :=
  ((l.filter (fun p => decide (p.1 = n))).getLast?).map Prod.snd

example : filenameOf "https://x.gov/pub/pr/pr.data.0" = "pr.data.0" := by decide
example : filenameOf "a/b/" = "" := by decide
example : needUpload [("a", "h1")] "a" "h1" = false := by decide
example : needUpload [("a", "h1")] "a" "h2" = true := by decide
example : needUpload [("a", "h1")] "b" "h2" = true := by decide

/-! ### Association-list lemmas -/

theorem lookupN_nil {α β : Type} [DecidableEq α] (n : α) :
    lookupN ([] : List (α × β)) n = none := rfl

theorem lookupN_cons {α β : Type} [DecidableEq α] (p : α × β) (r : List (α × β))
    (n : α) : lookupN (p :: r) n = if p.1 = n then some p.2 else lookupN r n := rfl

theorem lookupN_append_some {α β : Type} [DecidableEq α] {m : List (α × β)}
    {n : α} {v : β} (m' : List (α × β)) (h : lookupN m n = some v) :
    lookupN (m ++ m') n = some v := by
  induction m with
  | nil => simp [lookupN] at h
  | cons p r ih =>
    obtain ⟨a, b⟩ := p
    rw [List.cons_append, lookupN_cons] at *
    by_cases hp : a = n
    · simpa [hp] using h
    · simp only [hp, if_false] at h ⊢
      exact ih h

theorem lookupN_append_none {α β : Type} [DecidableEq α] {m : List (α × β)}
    {n : α} (m' : List (α × β)) (h : lookupN m n = none) :
    lookupN (m ++ m') n = lookupN m' n := by
  induction m with
  | nil => rfl
  | cons p r ih =>
    obtain ⟨a, b⟩ := p
    rw [lookupN_cons] at h
    by_cases hp : a = n
    · simp [hp] at h
    · rw [List.cons_append, lookupN_cons]
      simp only [hp, if_false] at h ⊢
      exact ih h

theorem lookupN_eq_none_iff {α β : Type} [DecidableEq α] (m : List (α × β))
    (n : α) : lookupN m n = none ↔ n ∉ m.map Prod.fst := by
  induction m with
  | nil => simp [lookupN]
  | cons p r ih =>
    obtain ⟨a, b⟩ := p
    by_cases hp : a = n
    · subst hp
      simp [lookupN_cons]
    · have hp' : ¬ n = a := fun he => hp he.symm
      simp [lookupN_cons, hp, hp', ih]

theorem mem_names_of_lookupN {α β : Type} [DecidableEq α] {m : List (α × β)}
    {n : α} {v : β} (h : lookupN m n = some v) : n ∈ m.map Prod.fst := by
  by_contra hn
  rw [← lookupN_eq_none_iff] at hn
  rw [h] at hn; cases hn

theorem lookupN_mem {α β : Type} [DecidableEq α] {m : List (α × β)} {n : α}
    {v : β} (h : lookupN m n = some v) : (n, v) ∈ m := by
  induction m with
  | nil => simp [lookupN] at h
  | cons p r ih =>
    obtain ⟨a, b⟩ := p
    rw [lookupN_cons] at h
    by_cases hp : a = n
    · subst hp
      simp only [if_pos rfl] at h
      cases h
      exact List.mem_cons_self _ _
    · simp only [hp, if_false] at h
      exact List.mem_cons_of_mem _ (ih h)

theorem lookupN_mapUpdate_self {α β : Type} [DecidableEq α] {m : List (α × β)}
    {k : α} (v : β) (h : k ∈ m.map Prod.fst) :
    lookupN (m.map (fun p => if p.1 = k then (k, v) else p)) k = some v := by
  induction m with
  | nil => simp at h
  | cons p r ih =>
    obtain ⟨a, b⟩ := p
    by_cases hp : a = k
    · subst hp
      simp [lookupN_cons]
    · have h' : k ∈ r.map Prod.fst := by
        rcases List.mem_map.mp h with ⟨q, hq, he⟩
        rcases List.mem_cons.mp hq with h1 | h2
        · rw [h1] at he
          simp at he
          exact absurd he hp
        · exact List.mem_map.mpr ⟨q, h2, he⟩
      simp [lookupN_cons, hp, ih h']

theorem lookupN_mapUpdate_ne {α β : Type} [DecidableEq α] (m : List (α × β))
    (k : α) (v : β) {n : α} (h : n ≠ k) :
    lookupN (m.map (fun p => if p.1 = k then (k, v) else p)) n = lookupN m n := by
  induction m with
  | nil => rfl
  | cons p r ih =>
    obtain ⟨a, b⟩ := p
    by_cases hp : a = k
    · have h1 : ¬ (k = n) := fun he => h he.symm
      have h2 : ¬ (a = n) := fun he => h1 (hp.symm.trans he)
      simp [lookupN_cons, hp, h1, h2, ih]
    · by_cases han : a = n
      · simp [lookupN_cons, hp, han, h]
      · simp [lookupN_cons, hp, han, ih]

theorem lookupN_dictInsert_self {α β : Type} [DecidableEq α] (m : List (α × β))
    (k : α) (v : β) : lookupN (dictInsert m k v) k = some v := by
  unfold dictInsert
  by_cases h : k ∈ m.map Prod.fst
  · rw [if_pos h]
    exact lookupN_mapUpdate_self v h
  · rw [if_neg h]
    rw [lookupN_append_none _ ((lookupN_eq_none_iff m k).mpr h)]
    simp [lookupN_cons]

theorem lookupN_dictInsert_ne {α β : Type} [DecidableEq α] (m : List (α × β))
    (k : α) (v : β) {n : α} (h : n ≠ k) :
    lookupN (dictInsert m k v) n = lookupN m n := by
  unfold dictInsert
  by_cases hm : k ∈ m.map Prod.fst
  · rw [if_pos hm]
    exact lookupN_mapUpdate_ne m k v h
  · rw [if_neg hm]
    cases hlk : lookupN m n with
    | some v' => exact lookupN_append_some _ hlk
    | none =>
      rw [lookupN_append_none _ hlk, lookupN_cons]
      rw [if_neg (fun he : k = n => h he.symm)]
      rfl

theorem names_mapUpdate {α β : Type} [DecidableEq α] (m : List (α × β)) (k : α)
    (v : β) : (m.map (fun p => if p.1 = k then (k, v) else p)).map Prod.fst
      = m.map Prod.fst := by
  induction m with
  | nil => rfl
  | cons p r ih =>
    obtain ⟨a, b⟩ := p
    by_cases hp : a = k
    · subst hp
      simp [ih]
    · simp [hp, ih]

theorem mem_names_dictInsert {α β : Type} [DecidableEq α] (m : List (α × β))
    (k : α) (v : β) (n : α) :
    n ∈ (dictInsert m k v).map Prod.fst ↔ n ∈ m.map Prod.fst ∨ n = k := by
  unfold dictInsert
  by_cases h : k ∈ m.map Prod.fst
  · rw [if_pos h, names_mapUpdate]
    constructor
    · exact Or.inl
    · rintro (hm | rfl)
      · exact hm
      · exact h
  · rw [if_neg h, List.map_append]
    simp

theorem nodup_names_dictInsert {α β : Type} [DecidableEq α] (m : List (α × β))
    (k : α) (v : β) (h : (m.map Prod.fst).Nodup) :
    ((dictInsert m k v).map Prod.fst).Nodup := by
  unfold dictInsert
  by_cases hm : k ∈ m.map Prod.fst
  · rw [if_pos hm, names_mapUpdate]
    exact h
  · rw [if_neg hm, List.map_append]
    rw [List.nodup_append]
    refine ⟨h, List.nodup_singleton k, ?_⟩
    intro a ha hb
    simp at hb
    subst hb
    exact hm ha

theorem eraseName_cons {α β : Type} [DecidableEq α] (p : α × β)
    (r : List (α × β)) (k : α) :
    eraseName (p :: r) k
      = if p.1 = k then eraseName r k else p :: eraseName r k := by
  unfold eraseName
  by_cases hp : p.1 = k
  · simp [List.filter_cons, hp]
  · simp [List.filter_cons, hp]

theorem lookupN_eraseName {α β : Type} [DecidableEq α] (m : List (α × β))
    (k n : α) : lookupN (eraseName m k) n
      = if n = k then none else lookupN m n := by
  induction m with
  | nil => simp [eraseName, lookupN]
  | cons p r ih =>
    obtain ⟨a, b⟩ := p
    by_cases hnk : n = k
    · subst hnk
      have ih' : lookupN (eraseName r n) n = none := by simpa using ih
      by_cases hak : a = n
      · simp [eraseName_cons, hak, ih']
      · simp [eraseName_cons, hak, ih', lookupN_cons]
    · by_cases hak : a = k
      · have han : ¬ a = n := fun he => hnk (he.symm.trans hak)
        have hkn : ¬ k = n := fun he => hnk he.symm
        simp [eraseName_cons, hak, hnk, han, hkn, ih, lookupN_cons]
      · simp [eraseName_cons, hak, hnk, ih, lookupN_cons]

theorem mem_names_eraseName {α β : Type} [DecidableEq α] (m : List (α × β))
    (k n : α) : n ∈ (eraseName m k).map Prod.fst
      ↔ n ∈ m.map Prod.fst ∧ n ≠ k := by
  constructor
  · intro hn
    rcases List.mem_map.mp hn with ⟨p, hp, he⟩
    have hf := List.mem_filter.mp hp
    have hne : p.1 ≠ k := by simpa using hf.2
    exact ⟨List.mem_map.mpr ⟨p, hf.1, he⟩, he ▸ hne⟩
  · rintro ⟨hn, hne⟩
    rcases List.mem_map.mp hn with ⟨p, hp, he⟩
    refine List.mem_map.mpr ⟨p, List.mem_filter.mpr ⟨hp, ?_⟩, he⟩
    simpa using he ▸ hne

theorem nodup_names_eraseName {α β : Type} [DecidableEq α] (m : List (α × β))
    (k : α) (h : (m.map Prod.fst).Nodup) :
    ((eraseName m k).map Prod.fst).Nodup :=
  ((List.filter_sublist m).map Prod.fst).nodup h

/-! ### Characterization of the per-URL loop -/

theorem mem_insertSeen (s : List Name) (n m : Name) :
    m ∈ insertSeen s n ↔ m ∈ s ∨ m = n := by
  unfold insertSeen
  by_cases h : n ∈ s
  · rw [if_pos h]
    constructor
    · exact Or.inl
    · rintro (hm | rfl)
      · exact hm
      · exact h
  · rw [if_neg h]
    simp

theorem needUpload_eq_true_iff (s3 : List (Name × Digest)) (n : Name)
    (h : Digest) : needUpload s3 n h = true ↔ lookupN s3 n ≠ some h := by
  unfold needUpload
  cases hl : lookupN s3 n with
  | none => simp
  | some d => simp

theorem needUpload_eq_false_iff (s3 : List (Name × Digest)) (n : Name)
    (h : Digest) : needUpload s3 n h = false ↔ lookupN s3 n = some h := by
  rw [← Bool.not_eq_true, needUpload_eq_true_iff]
  simp

theorem processUrl_char (env : Env) (s3 : List (Name × Digest)) (st : LoopSt)
    (url : String) :
    processUrl env s3 st url =
      ⟨(match uploadOf env s3 url with
         | some p => dictInsert st.store p.1 p.2
         | none => st.store),
       insertSeen st.seen (filenameOf url),
       st.puts ++ (uploadOf env s3 url).toList⟩ := by
  unfold processUrl uploadOf
  cases env.fetch url with
  | none => simp
  | some c =>
    cases hnu : needUpload s3 (filenameOf url) (env.hash c) with
    | false => simp [hnu]
    | true =>
      cases hp : env.putOk (filenameOf url) with
      | false => simp [hnu, hp]
      | true => simp [hnu, hp]

theorem uploadOf_eq_some {env : Env} {s3 : List (Name × Digest)} {url : String}
    {pn : Name} {pc : Content} (h : uploadOf env s3 url = some (pn, pc)) :
    pn = filenameOf url ∧ env.fetch url = some pc
      ∧ needUpload s3 (filenameOf url) (env.hash pc) = true
      ∧ env.putOk (filenameOf url) = true := by
  unfold uploadOf at h
  cases hf : env.fetch url with
  | none => rw [hf] at h; cases h
  | some c =>
    rw [hf] at h
    cases hnu : needUpload s3 (filenameOf url) (env.hash c) with
    | false => simp [hnu] at h
    | true =>
      cases hp : env.putOk (filenameOf url) with
      | false => simp [hnu, hp] at h
      | true =>
        simp [hnu, hp] at h
        obtain ⟨h1, h2⟩ := h
        subst h1
        subst h2
        exact ⟨rfl, rfl, hnu, rfl⟩

theorem uploadOf_of_fetch_none {env : Env} {s3 : List (Name × Digest)}
    {url : String} (h : env.fetch url = none) : uploadOf env s3 url = none := by
  unfold uploadOf
  rw [h]

theorem mem_uploadsOf {env : Env} {s3 : List (Name × Digest)}
    {urls : List String} {p : Name × Content} (h : p ∈ uploadsOf env s3 urls) :
    ∃ u, u ∈ urls ∧ uploadOf env s3 u = some p := by
  simpa [uploadsOf, List.mem_filterMap] using h

theorem uploadsOf_append (env : Env) (s3 : List (Name × Digest))
    (l l' : List String) :
    uploadsOf env s3 (l ++ l') = uploadsOf env s3 l ++ uploadsOf env s3 l' := by
  simp [uploadsOf, List.filterMap_append]

theorem foldl_processUrl_puts (env : Env) (s3 : List (Name × Digest)) :
    ∀ (urls : List String) (st : LoopSt),
    (urls.foldl (processUrl env s3) st).puts = st.puts ++ uploadsOf env s3 urls := by
  intro urls
  induction urls with
  | nil => intro st; simp [uploadsOf]
  | cons u rest ih =>
    intro st
    rw [List.foldl_cons, ih, processUrl_char]
    show st.puts ++ (uploadOf env s3 u).toList ++ uploadsOf env s3 rest
      = st.puts ++ uploadsOf env s3 (u :: rest)
    simp only [uploadsOf, List.filterMap_cons]
    cases uploadOf env s3 u <;> simp

theorem foldl_processUrl_seen (env : Env) (s3 : List (Name × Digest)) :
    ∀ (urls : List String) (st : LoopSt) (n : Name),
    n ∈ (urls.foldl (processUrl env s3) st).seen
      ↔ n ∈ st.seen ∨ n ∈ urls.map filenameOf := by
  intro urls
  induction urls with
  | nil => intro st n; simp
  | cons u rest ih =>
    intro st n
    rw [List.foldl_cons, ih, processUrl_char]
    show n ∈ insertSeen st.seen (filenameOf u) ∨ _ ↔ _
    rw [mem_insertSeen]
    simp
    tauto

theorem foldl_processUrl_store_names (env : Env) (s3 : List (Name × Digest)) :
    ∀ (urls : List String) (st : LoopSt) (n : Name),
    n ∈ (urls.foldl (processUrl env s3) st).store.map Prod.fst
      ↔ n ∈ st.store.map Prod.fst ∨ n ∈ (uploadsOf env s3 urls).map Prod.fst := by
  intro urls
  induction urls with
  | nil => intro st n; simp [uploadsOf]
  | cons u rest ih =>
    intro st n
    rw [List.foldl_cons, ih, processUrl_char]
    simp only [uploadsOf, List.filterMap_cons]
    cases hu : uploadOf env s3 u with
    | none => rfl
    | some p =>
      show n ∈ (dictInsert st.store p.1 p.2).map Prod.fst ∨ _ ↔ _
      rw [mem_names_dictInsert]
      simp
      tauto

theorem foldl_processUrl_store_nodup (env : Env) (s3 : List (Name × Digest)) :
    ∀ (urls : List String) (st : LoopSt),
    (st.store.map Prod.fst).Nodup
      → ((urls.foldl (processUrl env s3) st).store.map Prod.fst).Nodup := by
  intro urls
  induction urls with
  | nil => intro st h; exact h
  | cons u rest ih =>
    intro st h
    rw [List.foldl_cons, processUrl_char]
    cases hu : uploadOf env s3 u with
    | none => exact ih _ h
    | some p => exact ih _ (nodup_names_dictInsert _ _ _ h)

theorem lastPut_nil (n : Name) : lastPut [] n = none := rfl

theorem lastPut_append_concat_self (l : List (Name × Content))
    (p : Name × Content) : lastPut (l ++ [p]) p.1 = some p.2 := by
  unfold lastPut
  rw [List.filter_append]
  have : List.filter (fun q => decide (q.1 = p.1)) [p] = [p] := by simp
  rw [this, List.getLast?_append_of_ne_nil _ (by simp)]
  rfl

theorem lastPut_append_concat_ne (l : List (Name × Content)) (p : Name × Content)
    (n : Name) (h : ¬ p.1 = n) : lastPut (l ++ [p]) n = lastPut l n := by
  unfold lastPut
  rw [List.filter_append]
  have : List.filter (fun q => decide (q.1 = n)) [p] = [] := by simp [h]
  rw [this, List.append_nil]

theorem foldl_processUrl_store_lookup (env : Env) (s3 : List (Name × Digest))
    (n : Name) : ∀ (urls : List String) (st : LoopSt),
    lookupN (urls.foldl (processUrl env s3) st).store n
      = match lastPut (uploadsOf env s3 urls) n with
        | some c => some c
        | none => lookupN st.store n := by
  intro urls
  induction urls using List.reverseRecOn with
  | nil => intro st; simp [uploadsOf, lastPut]
  | append_singleton l u ih =>
    intro st
    rw [List.foldl_append, List.foldl_cons, List.foldl_nil, processUrl_char,
      uploadsOf_append]
    cases hu : uploadOf env s3 u with
    | none =>
      show lookupN (l.foldl (processUrl env s3) st).store n = _
      rw [ih]
      simp [uploadsOf, List.filterMap_cons, hu]
    | some p =>
      show lookupN (dictInsert (l.foldl (processUrl env s3) st).store p.1 p.2) n = _
      by_cases hpn : p.1 = n
      · subst hpn
        rw [lookupN_dictInsert_self]
        have h1 : uploadsOf env s3 [u] = [p] := by
          simp [uploadsOf, List.filterMap_cons, hu]
        rw [h1, lastPut_append_concat_self _ p]
      · rw [lookupN_dictInsert_ne _ _ _ (fun he => hpn he.symm), ih]
        have h1 : uploadsOf env s3 [u] = [p] := by
          simp [uploadsOf, List.filterMap_cons, hu]
        rw [h1, lastPut_append_concat_ne _ p n hpn]

/-! ### Characterization of the delete phase -/

theorem runDeletes_nil (env : Env) (current : List Name)
    (store : List (Name × Content)) (dels : List Name) :
    runDeletes env current [] store dels = (true, store, dels) := rfl

theorem runDeletes_cons (env : Env) (current : List Name) (n : Name)
    (rest : List Name) (store : List (Name × Content)) (dels : List Name) :
    runDeletes env current (n :: rest) store dels
      = if n ∈ current then runDeletes env current rest store dels
        else if env.deleteOk n then
          runDeletes env current rest (eraseName store n) (dels ++ [n])
        else (false, store, dels) := rfl

theorem runDeletes_ok_of_allOk (env : Env) (current : List Name) :
    ∀ (order : List Name) (store : List (Name × Content)) (dels : List Name),
    (∀ m ∈ order, m ∉ current → env.deleteOk m = true)
      → (runDeletes env current order store dels).1 = true := by
  intro order
  induction order with
  | nil => intro store dels _; rfl
  | cons m rest ih =>
    intro store dels h
    rw [runDeletes_cons]
    by_cases hm : m ∈ current
    · rw [if_pos hm]
      exact ih _ _ (fun x hx => h x (List.mem_cons_of_mem _ hx))
    · rw [if_neg hm, if_pos (h m (List.mem_cons_self _ _) hm)]
      exact ih _ _ (fun x hx => h x (List.mem_cons_of_mem _ hx))

theorem runDeletes_lookup_of_allOk (env : Env) (current : List Name) (n : Name) :
    ∀ (order : List Name) (store : List (Name × Content)) (dels : List Name),
    (∀ m ∈ order, m ∉ current → env.deleteOk m = true)
      → lookupN (runDeletes env current order store dels).2.1 n
        = if n ∈ order ∧ n ∉ current then none else lookupN store n := by
  intro order
  induction order with
  | nil =>
    intro store dels _
    rw [runDeletes_nil]
    simp
  | cons m rest ih =>
    intro store dels h
    have hrest : ∀ x ∈ rest, x ∉ current → env.deleteOk x = true :=
      fun x hx => h x (List.mem_cons_of_mem _ hx)
    rw [runDeletes_cons]
    by_cases hm : m ∈ current
    · rw [if_pos hm, ih _ _ hrest]
      by_cases hnm : n = m
      · subst hnm
        simp [hm]
      · simp [hnm, List.mem_cons]
    · rw [if_neg hm, if_pos (h m (List.mem_cons_self _ _) hm), ih _ _ hrest]
      by_cases hnm : n = m
      · subst hnm
        by_cases hr : n ∈ rest ∧ n ∉ current
        · simp [hr, hm]
        · simp [hr, hm, lookupN_eraseName]
      · rw [lookupN_eraseName]
        simp [hnm, List.mem_cons]

theorem runDeletes_mem_names_of_allOk (env : Env) (current : List Name)
    (n : Name) (order : List Name) (store : List (Name × Content))
    (dels : List Name)
    (h : ∀ m ∈ order, m ∉ current → env.deleteOk m = true) :
    n ∈ (runDeletes env current order store dels).2.1.map Prod.fst
      ↔ n ∈ store.map Prod.fst ∧ ¬ (n ∈ order ∧ n ∉ current) := by
  have h1 := runDeletes_lookup_of_allOk env current n order store dels h
  by_cases hc : n ∈ order ∧ n ∉ current
  · rw [if_pos hc] at h1
    have hnot : n ∉ (runDeletes env current order store dels).2.1.map Prod.fst :=
      (lookupN_eq_none_iff _ _).mp h1
    constructor
    · intro hmem
      exact absurd hmem hnot
    · rintro ⟨_, hfalse⟩
      exact absurd hc hfalse
  · rw [if_neg hc] at h1
    constructor
    · intro hmem
      refine ⟨?_, fun hx => hc hx⟩
      by_contra hs
      have h2 : lookupN store n = none := (lookupN_eq_none_iff _ _).mpr hs
      rw [h2] at h1
      exact ((lookupN_eq_none_iff _ _).mp h1) hmem
    · rintro ⟨hmem, _⟩
      by_contra hs
      have h2 : lookupN (runDeletes env current order store dels).2.1 n = none :=
        (lookupN_eq_none_iff _ _).mpr hs
      rw [h2] at h1
      exact ((lookupN_eq_none_iff _ _).mp h1.symm) hmem

theorem runDeletes_ok_false (env : Env) (current : List Name) {m : Name}
    (h1 : m ∉ current) (h2 : env.deleteOk m = false) :
    ∀ (order : List Name) (store : List (Name × Content)) (dels : List Name),
    m ∈ order → (runDeletes env current order store dels).1 = false := by
  intro order
  induction order with
  | nil => intro store dels hm; cases hm
  | cons x rest ih =>
    intro store dels hm
    rw [runDeletes_cons]
    by_cases hx : x ∈ current
    · rw [if_pos hx]
      rcases List.mem_cons.mp hm with rfl | hr
      · exact absurd hx h1
      · exact ih _ _ hr
    · rw [if_neg hx]
      by_cases hd : env.deleteOk x = true
      · rw [if_pos hd]
        rcases List.mem_cons.mp hm with rfl | hr
        · rw [hd] at h2; cases h2
        · exact ih _ _ hr
      · rw [if_neg hd]

theorem runDeletes_dels_mem (env : Env) (current : List Name) {d : Name} :
    ∀ (order : List Name) (store : List (Name × Content)) (dels : List Name),
    d ∈ (runDeletes env current order store dels).2.2
      → d ∈ dels ∨ (d ∉ current ∧ env.deleteOk d = true) := by
  intro order
  induction order with
  | nil => intro store dels h; exact Or.inl h
  | cons x rest ih =>
    intro store dels h
    rw [runDeletes_cons] at h
    by_cases hx : x ∈ current
    · rw [if_pos hx] at h
      exact ih _ _ h
    · rw [if_neg hx] at h
      by_cases hd : env.deleteOk x = true
      · rw [if_pos hd] at h
        rcases ih _ _ h with hm | hnew
        · rcases List.mem_append.mp hm with hm1 | hm2
          · exact Or.inl hm1
          · simp at hm2
            subst hm2
            exact Or.inr ⟨hx, hd⟩
        · exact Or.inr hnew
      · rw [if_neg hd] at h
        exact Or.inl h

theorem runDeletes_dels_of_allOk (env : Env) (current : List Name) :
    ∀ (order : List Name) (store : List (Name × Content)) (dels : List Name),
    (∀ m ∈ order, m ∉ current → env.deleteOk m = true)
      → (runDeletes env current order store dels).2.2
        = dels ++ order.filter (fun n => decide (n ∉ current)) := by
  intro order
  induction order with
  | nil =>
    intro store dels _
    rw [runDeletes_nil]
    simp
  | cons x rest ih =>
    intro store dels h
    have hrest : ∀ m ∈ rest, m ∉ current → env.deleteOk m = true :=
      fun m hm => h m (List.mem_cons_of_mem _ hm)
    rw [runDeletes_cons]
    by_cases hx : x ∈ current
    · rw [if_pos hx, ih _ _ hrest, List.filter_cons]
      simp [hx]
    · rw [if_neg hx, if_pos (h x (List.mem_cons_self _ _) hx), ih _ _ hrest,
        List.filter_cons]
      simp [hx]

theorem runDeletes_lookup_of_current (env : Env) (current : List Name)
    {n : Name} (hn : n ∈ current) :
    ∀ (order : List Name) (store : List (Name × Content)) (dels : List Name),
    lookupN (runDeletes env current order store dels).2.1 n = lookupN store n := by
  intro order
  induction order with
  | nil => intro store dels; rfl
  | cons x rest ih =>
    intro store dels
    rw [runDeletes_cons]
    by_cases hx : x ∈ current
    · rw [if_pos hx]
      exact ih _ _
    · rw [if_neg hx]
      by_cases hd : env.deleteOk x = true
      · rw [if_pos hd, ih _ _, lookupN_eraseName]
        rw [if_neg (fun he : n = x => hx (he ▸ hn))]
      · rw [if_neg hd]

theorem runDeletes_mem_of_current (env : Env) (current : List Name)
    {n : Name} (hn : n ∈ current) (order : List Name)
    (store : List (Name × Content)) (dels : List Name)
    (hm : n ∈ store.map Prod.fst) :
    n ∈ (runDeletes env current order store dels).2.1.map Prod.fst := by
  by_contra hc
  rw [← lookupN_eq_none_iff, runDeletes_lookup_of_current env current hn,
    lookupN_eq_none_iff] at hc
  exact hc hm

theorem runDeletes_mem_of_deleteFails (env : Env) (current : List Name)
    {n : Name} (hd : env.deleteOk n = false) :
    ∀ (order : List Name) (store : List (Name × Content)) (dels : List Name),
    n ∈ store.map Prod.fst
      → n ∈ (runDeletes env current order store dels).2.1.map Prod.fst := by
  intro order
  induction order with
  | nil => intro store dels h; exact h
  | cons x rest ih =>
    intro store dels h
    rw [runDeletes_cons]
    by_cases hx : x ∈ current
    · rw [if_pos hx]
      exact ih _ _ h
    · rw [if_neg hx]
      by_cases hdx : env.deleteOk x = true
      · rw [if_pos hdx]
        refine ih _ _ ?_
        rw [mem_names_eraseName]
        refine ⟨h, fun he => ?_⟩
        rw [he, hdx] at hd
        cases hd
      · rw [if_neg hdx]
        exact h

/-! ### The snapshot map over a well-formed bucket -/

theorem foldl_dictInsert_eq_append (env : Env) :
    ∀ (store : List (Name × Content)) (acc : List (Name × Digest)),
    (store.map Prod.fst).Nodup
      → (∀ q ∈ store, q.1 ∉ acc.map Prod.fst)
      → store.foldl (fun m p => dictInsert m p.1 (env.hash p.2)) acc
        = acc ++ store.map (fun p => (p.1, env.hash p.2)) := by
  intro store
  induction store with
  | nil => intro acc _ _; simp
  | cons p rest ih =>
    intro acc hnd hacc
    have hp : p.1 ∉ acc.map Prod.fst := hacc p (List.mem_cons_self _ _)
    have hnd' : (rest.map Prod.fst).Nodup := by
      rw [List.map_cons] at hnd
      exact (List.nodup_cons.mp hnd).2
    have hph : p.1 ∉ rest.map Prod.fst := by
      rw [List.map_cons] at hnd
      exact (List.nodup_cons.mp hnd).1
    rw [List.foldl_cons]
    have hstep : dictInsert acc p.1 (env.hash p.2) = acc ++ [(p.1, env.hash p.2)] := by
      unfold dictInsert
      rw [if_neg hp]
    rw [hstep, ih _ hnd' ?_]
    · simp
    · intro q hq
      rw [List.map_append]
      intro hmem
      rcases List.mem_append.mp hmem with h1 | h2
      · exact hacc q (List.mem_cons_of_mem _ hq) h1
      · simp at h2
        rw [← h2] at hph
        exact hph (List.mem_map_of_mem _ hq)

theorem s3FileMap_eq_of_nodup (env : Env) (store : List (Name × Content))
    (h : (store.map Prod.fst).Nodup) :
    s3FileMap env store = store.map (fun p => (p.1, env.hash p.2)) := by
  unfold s3FileMap
  rw [foldl_dictInsert_eq_append env store [] h (by simp)]
  simp

theorem names_s3FileMap_of_nodup (env : Env) (store : List (Name × Content))
    (h : (store.map Prod.fst).Nodup) :
    (s3FileMap env store).map Prod.fst = store.map Prod.fst := by
  rw [s3FileMap_eq_of_nodup env store h, List.map_map]
  rfl

theorem lookupN_map_entry {β γ : Type} (f : β → γ) (n : Name) :
    ∀ (m : List (Name × β)),
    lookupN (m.map (fun p => (p.1, f p.2))) n = Option.map f (lookupN m n) := by
  intro m
  induction m with
  | nil => rfl
  | cons p rest ih =>
    obtain ⟨a, b⟩ := p
    by_cases ha : a = n
    · simp [lookupN_cons, ha]
    · simp [lookupN_cons, ha, ih]

theorem lookupN_s3FileMap_of_nodup (env : Env) (store : List (Name × Content))
    (h : (store.map Prod.fst).Nodup) (n : Name) :
    lookupN (s3FileMap env store) n = Option.map env.hash (lookupN store n) := by
  rw [s3FileMap_eq_of_nodup env store h, lookupN_map_entry]

theorem s3FileMap_names_sub (env : Env) :
    ∀ (store : List (Name × Content)) (acc : List (Name × Digest)) (n : Name),
    n ∈ ((store.foldl (fun m p => dictInsert m p.1 (env.hash p.2)) acc).map Prod.fst)
      → n ∈ acc.map Prod.fst ∨ n ∈ store.map Prod.fst := by
  intro store
  induction store with
  | nil => intro acc n h; exact Or.inl h
  | cons p rest ih =>
    intro acc n h
    rw [List.foldl_cons] at h
    rcases ih _ n h with h1 | h2
    · rw [mem_names_dictInsert] at h1
      rcases h1 with h1a | h1b
      · exact Or.inl h1a
      · exact Or.inr (by simp [h1b])
    · exact Or.inr (List.mem_cons_of_mem _ h2)

/-! ### Unfolding `sync` into its phases -/

/-- The loop state after the per-URL phase of `sync` (internal view). -/
def loopState (env : Env) (store0 : List (Name × Content))
    (urls : List String) : LoopSt :=
  urls.foldl (processUrl env (s3FileMap env store0)) ⟨store0, [], []⟩

/-- The result of the delete phase of `sync` (internal view). -/
def deleteResult (env : Env) (store0 : List (Name × Content))
    (urls : List String) : Bool × List (Name × Content) × List Name :=
  runDeletes env (loopState env store0 urls).seen
    ((s3FileMap env store0).map Prod.fst) (loopState env store0 urls).store []

theorem sync_eq_of_listing (env : Env) (store0 : List (Name × Content))
    (urls : List String) (hl : env.remoteListing = some urls)
    (hs : env.storeListOk = true) :
    sync env store0
      = ⟨(deleteResult env store0 urls).1, (deleteResult env store0 urls).2.1,
         (loopState env store0 urls).seen, (loopState env store0 urls).puts,
         (deleteResult env store0 urls).2.2⟩ := by
  unfold sync
  rw [hl]
  simp [hs, loopState, deleteResult]

/-! ### Claim C10: listing failures are fatal and happen before any mutation -/

/-- C10: for every run of `BLSSync.sync()`, if the remote listing call or
the store listing call fails, the run fails fatally (the exception
propagates, `ok = false`) and no mutation has been issued: there are no
puts, no deletes, and the store is unchanged. -/
theorem listing_failure_fatal (env : Env) (store0 : List (Name × Content))
    (h : env.remoteListing = none ∨ env.storeListOk = false) :
    (sync env store0).ok = false ∧ (sync env store0).puts = []
      ∧ (sync env store0).deletes = []
      ∧ (sync env store0).store = store0 := by
  rcases h with h | h
  · unfold sync
    rw [h]
    exact ⟨rfl, rfl, rfl, rfl⟩
  · unfold sync
    cases hl : env.remoteListing with
    | none => exact ⟨rfl, rfl, rfl, rfl⟩
    | some urls =>
      rw [h]
      simp

/-- A digest function for concrete instances: one digit per byte. -/
def digitHash (c : Content) : Digest :=
  String.mk (c.map (fun k => Char.ofNat (48 + k)))

/-- Environment whose remote listing call fails. -/
def envC10 : Env :=
  ⟨none, true, fun _ => none, fun _ => true, fun _ => true, digitHash⟩

theorem listing_failure_fatal_witness :
    envC10.remoteListing = none
      ∧ (sync envC10 [("a", [1])]).ok = false
      ∧ (sync envC10 [("a", [1])]).puts = []
      ∧ (sync envC10 [("a", [1])]).deletes = []
      ∧ (sync envC10 [("a", [1])]).store = [("a", [1])] := by
  refine ⟨rfl, ?_⟩
  have h := listing_failure_fatal envC10 [("a", [1])] (Or.inl rfl)
  exact h

/-! ### Claim C2: a put happens iff the name is new or the digest differs -/

/-- C2: for every remote item processed by the loop body of
`BLSSync.sync()` whose fetch succeeds and whose upload block would
succeed, a put is issued (appended to the put trace) if and only if the
item's name is absent from the snapshot stored-digest map or the stored
digest differs from the freshly computed digest of the fetched content;
and when the digests match, the item is skipped: no put is attempted and
the store is untouched. -/
theorem upload_decision_iff (env : Env) (s3 : List (Name × Digest))
    (st : LoopSt) (url : String) (c : Content)
    (hf : env.fetch url = some c)
    (hp : env.putOk (filenameOf url) = true) :
    ((processUrl env s3 st url).puts = st.puts ++ [(filenameOf url, c)]
        ↔ lookupN s3 (filenameOf url) ≠ some (env.hash c))
      ∧ (lookupN s3 (filenameOf url) = some (env.hash c)
          → (processUrl env s3 st url).puts = st.puts
            ∧ (processUrl env s3 st url).store = st.store) := by
  cases hnu : needUpload s3 (filenameOf url) (env.hash c) with
  | true =>
    have hu : uploadOf env s3 url = some (filenameOf url, c) := by
      unfold uploadOf
      rw [hf]
      simp [hnu, hp]
    rw [processUrl_char, hu]
    constructor
    · constructor
      · intro _
        exact (needUpload_eq_true_iff _ _ _).mp hnu
      · intro _
        rfl
    · intro hsk
      have hc := (needUpload_eq_false_iff s3 (filenameOf url) (env.hash c)).mpr hsk
      rw [hnu] at hc
      cases hc
  | false =>
    have hu : uploadOf env s3 url = none := by
      unfold uploadOf
      rw [hf]
      simp [hnu]
    have hl := (needUpload_eq_false_iff _ _ _).mp hnu
    rw [processUrl_char, hu]
    constructor
    · constructor
      · intro habs
        simp [Option.toList] at habs
      · intro hne
        exact absurd hl hne
    · intro _
      exact ⟨by simp, rfl⟩

/-- Environment for the C2 witness: one remote file, empty bucket. -/
def envC2 : Env :=
  ⟨some ["d/a.txt"], true,
   (fun u => if u = "d/a.txt" then some [1] else none),
   fun _ => true, fun _ => true, digitHash⟩

theorem upload_decision_iff_witness :
    envC2.fetch "d/a.txt" = some [1]
      ∧ envC2.putOk (filenameOf "d/a.txt") = true
      ∧ ((processUrl envC2 [] ⟨[], [], []⟩ "d/a.txt").puts
            = [] ++ [(filenameOf "d/a.txt", [1])]
          ↔ lookupN ([] : List (Name × Digest)) (filenameOf "d/a.txt")
              ≠ some (envC2.hash [1])) := by
  refine ⟨by decide, rfl, ?_⟩
  exact (upload_decision_iff envC2 [] ⟨[], [], []⟩ "d/a.txt" [1] (by decide) rfl).1

example : (sync envC2 []).store = [("a.txt", [1])] := by decide
example : (sync envC2 []).ok = true := by decide
example : (sync envC2 [("old.txt", [3])]).deletes = ["old.txt"] := by decide

/-! ### Claim C1: convergence of the store to the remote listing -/

theorem getLastQ_eq_none_iff {α : Type} (l : List α) :
    l.getLast? = none ↔ l = [] := by
  constructor
  · intro h
    by_contra hne
    have h2 := List.getLast?_isSome.mpr hne
    rw [h] at h2
    cases h2
  · rintro rfl
    rfl

theorem lastPut_eq_none_iff (l : List (Name × Content)) (n : Name) :
    lastPut l n = none ↔ ∀ p ∈ l, p.1 ≠ n := by
  unfold lastPut
  rw [Option.map_eq_none', getLastQ_eq_none_iff, List.filter_eq_nil_iff]
  simp

theorem lastPut_eq_some_mem {l : List (Name × Content)} {n : Name} {c : Content}
    (h : lastPut l n = some c) : (n, c) ∈ l := by
  unfold lastPut at h
  cases hg : (l.filter (fun p => decide (p.1 = n))).getLast? with
  | none => rw [hg] at h; cases h
  | some q =>
    rw [hg] at h
    simp at h
    have hq : q ∈ l.filter (fun p => decide (p.1 = n)) :=
      List.mem_of_mem_getLast? (by rw [hg]; exact Option.mem_some_iff.mpr rfl)
    have hq1 : q.1 = n := by simpa using (List.mem_filter.mp hq).2
    have heq : (n, c) = q := by
      rw [← hq1, ← h]
    rw [heq]
    exact List.mem_of_mem_filter hq

theorem upName_mem_filenames {env : Env} {s3 : List (Name × Digest)}
    {urls : List String} {n : Name}
    (h : n ∈ (uploadsOf env s3 urls).map Prod.fst) :
    n ∈ urls.map filenameOf := by
  rcases List.mem_map.mp h with ⟨p, hp, hfst⟩
  obtain ⟨pn, pc⟩ := p
  rcases mem_uploadsOf hp with ⟨u, hu, huo⟩
  rcases uploadOf_eq_some huo with ⟨he1, _, _, _⟩
  exact List.mem_map.mpr ⟨u, hu, he1.symm.trans hfst⟩

/-- C1: under a healthy store (all per-name puts and deletes succeed) and
well-formed inputs (names unique in the listing, bucket keys unique), a
run of `sync` completes and converges: the final stored names are exactly
the listing's names, except that a name whose fetch failed is retained
only if it was already stored (stale) and missing otherwise; every
retained name's stored digest equals the digest of the remote content
fetched during the run (stale names keep their old content); in
particular an empty remote listing wipes the scope with zero puts. -/
theorem sync_converges (env : Env) (store0 : List (Name × Content))
    (urls : List String)
    (hl : env.remoteListing = some urls)
    (hs : env.storeListOk = true)
    (hnd : (urls.map filenameOf).Nodup)
    (hnds : (store0.map Prod.fst).Nodup)
    (hput : ∀ n, env.putOk n = true)
    (hdel : ∀ n, env.deleteOk n = true) :
    (sync env store0).ok = true
      ∧ (∀ n, n ∈ (sync env store0).store.map Prod.fst
          ↔ ∃ u, u ∈ urls ∧ filenameOf u = n
              ∧ (env.fetch u ≠ none ∨ n ∈ store0.map Prod.fst))
      ∧ (∀ n c, lookupN (sync env store0).store n = some c
          → ∃ u, u ∈ urls ∧ filenameOf u = n
              ∧ ((∃ rc, env.fetch u = some rc ∧ env.hash c = env.hash rc)
                  ∨ (env.fetch u = none ∧ lookupN store0 n = some c)))
      ∧ (urls = [] → (sync env store0).store = [] ∧ (sync env store0).puts = []) := by
  rw [sync_eq_of_listing env store0 urls hl hs]
  have hseen : ∀ n, n ∈ (loopState env store0 urls).seen ↔ n ∈ urls.map filenameOf := by
    intro n
    unfold loopState
    rw [foldl_processUrl_seen]
    simp
  have horder : (s3FileMap env store0).map Prod.fst = store0.map Prod.fst :=
    names_s3FileMap_of_nodup env store0 hnds
  have hLnames : ∀ n, n ∈ (loopState env store0 urls).store.map Prod.fst
      ↔ n ∈ store0.map Prod.fst
        ∨ n ∈ (uploadsOf env (s3FileMap env store0) urls).map Prod.fst := by
    intro n
    unfold loopState
    rw [foldl_processUrl_store_names]
  have hok : (deleteResult env store0 urls).1 = true := by
    unfold deleteResult
    exact runDeletes_ok_of_allOk _ _ _ _ _ (fun m _ _ => hdel m)
  have hFnames : ∀ n, n ∈ (deleteResult env store0 urls).2.1.map Prod.fst
      ↔ (n ∈ store0.map Prod.fst
            ∨ n ∈ (uploadsOf env (s3FileMap env store0) urls).map Prod.fst)
          ∧ ¬ (n ∈ store0.map Prod.fst ∧ n ∉ urls.map filenameOf) := by
    intro n
    unfold deleteResult
    rw [runDeletes_mem_names_of_allOk _ _ _ _ _ _ (fun m _ _ => hdel m)]
    simp only [hLnames n, horder, hseen n]
  refine ⟨hok, ?_, ?_, ?_⟩
  · -- final names equal the listing's names modulo failed fetches
    intro n
    show n ∈ (deleteResult env store0 urls).2.1.map Prod.fst ↔ _
    rw [hFnames n]
    constructor
    · rintro ⟨h1, h2⟩
      by_cases hup : n ∈ (uploadsOf env (s3FileMap env store0) urls).map Prod.fst
      · rcases List.mem_map.mp hup with ⟨p, hp, hfst⟩
        obtain ⟨pn, pc⟩ := p
        rcases mem_uploadsOf hp with ⟨u, hu, huo⟩
        rcases uploadOf_eq_some huo with ⟨he1, he2, _, _⟩
        refine ⟨u, hu, he1.symm.trans hfst, Or.inl ?_⟩
        rw [he2]
        exact fun hx => Option.noConfusion hx
      · have hst : n ∈ store0.map Prod.fst := h1.resolve_right hup
        have hsn : n ∈ urls.map filenameOf := by
          by_contra hns
          exact h2 ⟨hst, hns⟩
        rcases List.mem_map.mp hsn with ⟨u, hu, hfu⟩
        exact ⟨u, hu, hfu, Or.inr hst⟩
    · rintro ⟨u, hu, hfu, hor⟩
      have hn_seen : n ∈ urls.map filenameOf := List.mem_map.mpr ⟨u, hu, hfu⟩
      refine ⟨?_, fun hx => hx.2 hn_seen⟩
      rcases hor with hne | hst
      · rcases Option.ne_none_iff_exists'.mp hne with ⟨c, hc⟩
        by_cases hst : n ∈ store0.map Prod.fst
        · exact Or.inl hst
        · refine Or.inr ?_
          have hlook : lookupN (s3FileMap env store0) n = none := by
            rw [lookupN_eq_none_iff, horder]
            exact hst
          have hnu : needUpload (s3FileMap env store0) n (env.hash c) = true := by
            rw [needUpload_eq_true_iff, hlook]
            exact fun hx => Option.noConfusion hx
          have huo : uploadOf env (s3FileMap env store0) u = some (n, c) := by
            unfold uploadOf
            rw [hc, hfu]
            simp [hnu, hput n]
          refine List.mem_map.mpr ⟨(n, c), ?_, rfl⟩
          unfold uploadsOf
          exact List.mem_filterMap.mpr ⟨u, hu, huo⟩
      · exact Or.inl hst
  · -- every retained name's digest matches the fetched content
    intro n c hlk
    have hmem := mem_names_of_lookupN hlk
    have h2 := (hFnames n).mp hmem
    have hn_seen : n ∈ urls.map filenameOf := by
      by_cases hst : n ∈ store0.map Prod.fst
      · by_contra hns
        exact h2.2 ⟨hst, hns⟩
      · exact upName_mem_filenames (h2.1.resolve_left hst)
    rcases List.mem_map.mp hn_seen with ⟨u, hu, hfu⟩
    have hcur : n ∈ (loopState env store0 urls).seen := (hseen n).mpr hn_seen
    unfold deleteResult at hlk
    rw [runDeletes_lookup_of_current env _ hcur _ _ _] at hlk
    have hloop := foldl_processUrl_store_lookup env (s3FileMap env store0) n urls
      ⟨store0, [], []⟩
    unfold loopState at hlk
    rw [hloop] at hlk
    cases hlast : lastPut (uploadsOf env (s3FileMap env store0) urls) n with
    | some c' =>
      rw [hlast] at hlk
      simp at hlk
      subst hlk
      have hmem2 := lastPut_eq_some_mem hlast
      rcases mem_uploadsOf hmem2 with ⟨u', hu', huo'⟩
      rcases uploadOf_eq_some huo' with ⟨he1, he2, _, _⟩
      exact ⟨u', hu', he1.symm, Or.inl ⟨c', he2, rfl⟩⟩
    | none =>
      rw [hlast] at hlk
      simp at hlk
      cases hfu2 : env.fetch u with
      | none => exact ⟨u, hu, hfu, Or.inr ⟨hfu2, hlk⟩⟩
      | some rc =>
        by_cases hh : env.hash c = env.hash rc
        · exact ⟨u, hu, hfu, Or.inl ⟨rc, hfu2, hh⟩⟩
        · exfalso
          have hs3lk : lookupN (s3FileMap env store0) n = some (env.hash c) := by
            rw [lookupN_s3FileMap_of_nodup env store0 hnds, hlk]
            rfl
          have hnu : needUpload (s3FileMap env store0) n (env.hash rc) = true := by
            rw [needUpload_eq_true_iff, hs3lk]
            intro hx
            simp at hx
            exact hh hx
          have huo : uploadOf env (s3FileMap env store0) u = some (n, rc) := by
            unfold uploadOf
            rw [hfu2, hfu]
            simp [hnu, hput n]
          have hmem3 : (n, rc) ∈ uploadsOf env (s3FileMap env store0) urls := by
            unfold uploadsOf
            exact List.mem_filterMap.mpr ⟨u, hu, huo⟩
          exact (lastPut_eq_none_iff _ _).mp hlast (n, rc) hmem3 rfl
  · -- empty listing: full wipe, zero puts
    intro hurls
    subst hurls
    constructor
    · have hnone : ∀ n, n ∉ (deleteResult env store0 []).2.1.map Prod.fst := by
        intro n hmem
        rcases (hFnames n).mp hmem with ⟨h1, h2⟩
        rcases h1 with hst | hup
        · exact h2 ⟨hst, by simp⟩
        · simp [uploadsOf] at hup
      have hnil : (deleteResult env store0 []).2.1.map Prod.fst = [] :=
        List.eq_nil_iff_forall_not_mem.mpr hnone
      exact List.map_eq_nil_iff.mp hnil
    · show (loopState env store0 []).puts = []
      rfl

/-- Environment for the C1 witness: one remote file, one stale stored name. -/
def envC1 : Env :=
  ⟨some ["a/x"], true,
   (fun u => if u = "a/x" then some [1] else none),
   fun _ => true, fun _ => true, digitHash⟩

theorem sync_converges_witness :
    ((["a/x"].map filenameOf).Nodup)
      ∧ ((([("y", [2])] : List (Name × Content)).map Prod.fst).Nodup)
      ∧ (sync envC1 [("y", [2])]).ok = true :=
  ⟨by decide, by decide,
   (sync_converges envC1 [("y", [2])] ["a/x"] rfl rfl (by decide) (by decide)
     (fun _ => rfl) (fun _ => rfl)).1⟩

example : (sync envC1 [("y", [2])]).store = [("x", [1])] := by decide

/-! ### Claim C3: one failed fetch does not abort the run -/

theorem filterMap_eq_filterMap_erase {α β : Type} [DecidableEq α]
    (f : α → Option β) :
    ∀ (l : List α) (a : α), a ∈ l → f a = none
      → l.filterMap f = (l.erase a).filterMap f := by
  intro l
  induction l with
  | nil => intro a ha; cases ha
  | cons x t ih =>
    intro a ha hf
    by_cases hxa : x = a
    · subst hxa
      rw [List.erase_cons_head]
      simp [List.filterMap_cons, hf]
    · have hat : a ∈ t := by
        rcases List.mem_cons.mp ha with h1 | h1
        · exact absurd h1.symm hxa
        · exact h1
      rw [List.erase_cons_tail (by simp [hxa])]
      cases hfx : f x <;> simp [List.filterMap_cons, hfx, ih a hat hf]

/-- C3: if the fetch of exactly one listed URL fails (and deletes
succeed), `sync` still completes without raising, its put trace is
exactly the puts computed for the remaining URLs (the failed item is
simply dropped from the upload work), the failed item's name is never
deleted (it was recorded as seen before the fetch attempt), and its
stored copy, if any, is still present at the end. -/
theorem fetch_failure_tolerated (env : Env) (store0 : List (Name × Content))
    (urls : List String) (u : String)
    (hl : env.remoteListing = some urls)
    (hs : env.storeListOk = true)
    (hu : u ∈ urls)
    (hf : env.fetch u = none)
    (_hothers : ∀ v ∈ urls, v ≠ u → env.fetch v ≠ none)
    (hdel : ∀ n, env.deleteOk n = true) :
    (sync env store0).ok = true
      ∧ (sync env store0).puts
          = uploadsOf env (s3FileMap env store0) (urls.erase u)
      ∧ filenameOf u ∉ (sync env store0).deletes
      ∧ (filenameOf u ∈ store0.map Prod.fst
          → filenameOf u ∈ (sync env store0).store.map Prod.fst) := by
  rw [sync_eq_of_listing env store0 urls hl hs]
  have hok : (deleteResult env store0 urls).1 = true := by
    unfold deleteResult
    exact runDeletes_ok_of_allOk _ _ _ _ _ (fun m _ _ => hdel m)
  have hseenu : filenameOf u ∈ (loopState env store0 urls).seen := by
    unfold loopState
    rw [foldl_processUrl_seen]
    exact Or.inr (List.mem_map_of_mem _ hu)
  refine ⟨hok, ?_, ?_, ?_⟩
  · show (loopState env store0 urls).puts = _
    unfold loopState
    rw [foldl_processUrl_puts]
    show [] ++ uploadsOf env (s3FileMap env store0) urls = _
    rw [List.nil_append]
    unfold uploadsOf
    exact filterMap_eq_filterMap_erase _ urls u hu (uploadOf_of_fetch_none hf)
  · intro hdmem
    have hdmem' : filenameOf u ∈ (deleteResult env store0 urls).2.2 := hdmem
    unfold deleteResult at hdmem'
    rcases runDeletes_dels_mem env _ _ _ _ hdmem' with h1 | h2
    · cases h1
    · exact h2.1 hseenu
  · intro hst
    show filenameOf u ∈ (deleteResult env store0 urls).2.1.map Prod.fst
    unfold deleteResult
    refine runDeletes_mem_of_current env _ hseenu _ _ _ ?_
    unfold loopState
    rw [foldl_processUrl_store_names]
    exact Or.inl hst

/-- Environment for the C3 witness: two remote files, one failing fetch. -/
def envC3 : Env :=
  ⟨some ["a/x", "b/y"], true,
   (fun v => if v = "a/x" then some [1] else none),
   fun _ => true, fun _ => true, digitHash⟩

theorem fetch_failure_tolerated_witness :
    envC3.fetch "b/y" = none
      ∧ (∀ v ∈ ["a/x", "b/y"], v ≠ "b/y" → envC3.fetch v ≠ none)
      ∧ (sync envC3 [("y", [5])]).ok = true :=
  ⟨by decide, by decide,
   (fetch_failure_tolerated envC3 [("y", [5])] ["a/x", "b/y"] "b/y" rfl rfl
     (by decide) (by decide) (by decide) (fun _ => rfl)).1⟩

example : (sync envC3 [("y", [5])]).store = [("y", [5]), ("x", [1])] := by decide
example : (sync envC3 [("y", [5])]).deletes = [] := by decide

/-! ### Claim C4: a failing per-item delete (corrected: it is fatal) -/

/-- Environment for the C4 counterexample: empty remote listing; the
delete of `"a"` fails, the delete of `"b"` would succeed. -/
def envC4 : Env :=
  ⟨some [], true, fun _ => none, fun _ => true,
   (fun n => decide (n ≠ "a")), digitHash⟩

/-- C4 counterexample: with stale names `"a"` and `"b"` and a failing
delete of `"a"`, the run does not complete successfully (`ok = false`),
nothing is recorded deleted, and the remaining stale name `"b"` — whose
own delete would have succeeded — is still in the store.  The delete loop
of `BLSSync.sync` (lines 156-160) has no exception handling, so the claim
that a delete failure is logged and the remaining stale names still get
deleted is false on the code. -/
theorem delete_failure_cex :
    envC4.deleteOk "a" = false
      ∧ envC4.deleteOk "b" = true
      ∧ (sync envC4 [("a", [0]), ("b", [1])]).ok = false
      ∧ (sync envC4 [("a", [0]), ("b", [1])]).deletes = []
      ∧ "b" ∈ (sync envC4 [("a", [0]), ("b", [1])]).store.map Prod.fst := by
  decide

/-- C4 (amended): a failure of a per-item delete in the final delete
phase is fatal, not non-fatal: the exception propagates out of `sync`
(the run does not complete successfully), the failing name is recorded in
no delete trace, and it remains in the store; stale names not yet reached
by the loop are not deleted. -/
theorem delete_failure_fatal (env : Env) (store0 : List (Name × Content))
    (urls : List String) (n : Name)
    (hl : env.remoteListing = some urls)
    (hs : env.storeListOk = true)
    (hmem : n ∈ (s3FileMap env store0).map Prod.fst)
    (hseen : n ∉ (sync env store0).seen)
    (hd : env.deleteOk n = false) :
    (sync env store0).ok = false
      ∧ n ∉ (sync env store0).deletes
      ∧ n ∈ (sync env store0).store.map Prod.fst := by
  rw [sync_eq_of_listing env store0 urls hl hs] at hseen ⊢
  have hseen' : n ∉ (loopState env store0 urls).seen := hseen
  refine ⟨?_, ?_, ?_⟩
  · show (deleteResult env store0 urls).1 = false
    unfold deleteResult
    exact runDeletes_ok_false env _ hseen' hd _ _ _ hmem
  · intro hdm
    have hdm' : n ∈ (deleteResult env store0 urls).2.2 := hdm
    unfold deleteResult at hdm'
    rcases runDeletes_dels_mem env _ _ _ _ hdm' with h1 | h2
    · cases h1
    · rw [h2.2] at hd
      cases hd
  · show n ∈ (deleteResult env store0 urls).2.1.map Prod.fst
    unfold deleteResult
    refine runDeletes_mem_of_deleteFails env _ hd _ _ _ ?_
    have hst : n ∈ store0.map Prod.fst := by
      rcases s3FileMap_names_sub env store0 [] n hmem with h | h
      · simp at h
      · exact h
    unfold loopState
    rw [foldl_processUrl_store_names]
    exact Or.inl hst

theorem delete_failure_fatal_witness :
    ("a" ∈ (s3FileMap envC4 [("a", [0]), ("b", [1])]).map Prod.fst)
      ∧ ("a" ∉ (sync envC4 [("a", [0]), ("b", [1])]).seen)
      ∧ envC4.deleteOk "a" = false
      ∧ (sync envC4 [("a", [0]), ("b", [1])]).ok = false :=
  ⟨by decide, by decide, by decide,
   (delete_failure_fatal envC4 [("a", [0]), ("b", [1])] [] "a" rfl rfl
     (by decide) (by decide) (by decide)).1⟩

/-! ### Claim C5: idempotence of a second run (corrected: needs unique names) -/

theorem runDeletes_store_nodup (env : Env) (current : List Name) :
    ∀ (order : List Name) (store : List (Name × Content)) (dels : List Name),
    (store.map Prod.fst).Nodup
      → ((runDeletes env current order store dels).2.1.map Prod.fst).Nodup := by
  intro order
  induction order with
  | nil => intro store dels h; exact h
  | cons x rest ih =>
    intro store dels h
    rw [runDeletes_cons]
    by_cases hx : x ∈ current
    · rw [if_pos hx]
      exact ih _ _ h
    · rw [if_neg hx]
      by_cases hdx : env.deleteOk x = true
      · rw [if_pos hdx]
        exact ih _ _ (nodup_names_eraseName _ _ h)
      · rw [if_neg hdx]
        exact h

theorem nodup_map_inj {α β : Type} {f : α → β} :
    ∀ {l : List α}, (l.map f).Nodup
      → ∀ {a b : α}, a ∈ l → b ∈ l → f a = f b → a = b := by
  intro l
  induction l with
  | nil => intro _ a b ha; cases ha
  | cons x t ih =>
    intro hnd a b ha hb hf
    rw [List.map_cons, List.nodup_cons] at hnd
    rcases List.mem_cons.mp ha with rfl | ha'
    · rcases List.mem_cons.mp hb with rfl | hb'
      · rfl
      · exact absurd (hf.symm ▸ List.mem_map_of_mem f hb') hnd.1
    · rcases List.mem_cons.mp hb with rfl | hb'
      · exact absurd (hf ▸ List.mem_map_of_mem f ha') hnd.1
      · exact ih hnd.2 ha' hb' hf

theorem uploadOf_none_of_needUpload_false {env : Env}
    {s3 : List (Name × Digest)} {url : String} {c : Content}
    (hf : env.fetch url = some c)
    (hnu : needUpload s3 (filenameOf url) (env.hash c) = false) :
    uploadOf env s3 url = none := by
  unfold uploadOf
  rw [hf]
  simp [hnu]

theorem needUpload_false_of_uploadOf_none {env : Env}
    {s3 : List (Name × Digest)} {url : String} {c : Content}
    (hf : env.fetch url = some c) (hp : env.putOk (filenameOf url) = true)
    (h : uploadOf env s3 url = none) :
    needUpload s3 (filenameOf url) (env.hash c) = false := by
  unfold uploadOf at h
  rw [hf] at h
  cases hnu : needUpload s3 (filenameOf url) (env.hash c) with
  | false => rfl
  | true => simp [hnu, hp] at h

/-- Environment for the C5 counterexample: two listed URLs share the
filename `f` with different contents; the bucket starts empty. -/
def envC5 : Env :=
  ⟨some ["a/f", "b/f"], true,
   (fun v => if v = "a/f" then some [1] else if v = "b/f" then some [2] else none),
   fun _ => true, fun _ => true, digitHash⟩

/-- C5 counterexample: with an unchanged remote listing and unchanged
contents, the second run still performs a put.  First run (empty store):
both duplicate entries upload, `f` ends at content `[2]`.  Second run:
the snapshot digest of `f` is the digest of `[2]`, so the first entry
(content `[1]`) differs and is re-uploaded while the second is skipped —
the claim that the second run produces zero puts and zero deletes for
every listing and store state is false on the code. -/
theorem idempotence_cex :
    (sync envC5 []).ok = true
      ∧ (sync envC5 []).store = [("f", [2])]
      ∧ (sync envC5 ((sync envC5 []).store)).ok = true
      ∧ (sync envC5 ((sync envC5 []).store)).puts = [("f", [1])]
      ∧ (sync envC5 ((sync envC5 []).store)).puts ≠ [] := by
  decide

/-- C5 (amended): when the listing's derived filenames are pairwise
distinct (as the data model specifies) and the store is healthy, running
`sync` twice with the same environment (same listing, same remote
contents) produces zero puts and zero deletes on the second run. -/
theorem sync_idempotent_nodup (env : Env) (store0 : List (Name × Content))
    (urls : List String)
    (hl : env.remoteListing = some urls)
    (hs : env.storeListOk = true)
    (hnd : (urls.map filenameOf).Nodup)
    (hnds : (store0.map Prod.fst).Nodup)
    (hput : ∀ n, env.putOk n = true)
    (hdel : ∀ n, env.deleteOk n = true) :
    (sync env ((sync env store0).store)).puts = []
      ∧ (sync env ((sync env store0).store)).deletes = [] := by
  rw [sync_eq_of_listing env store0 urls hl hs]
  show (sync env ((deleteResult env store0 urls).2.1)).puts = []
    ∧ (sync env ((deleteResult env store0 urls).2.1)).deletes = []
  rw [sync_eq_of_listing env ((deleteResult env store0 urls).2.1) urls hl hs]
  have hS1nodup : ((deleteResult env store0 urls).2.1.map Prod.fst).Nodup := by
    unfold deleteResult
    apply runDeletes_store_nodup
    unfold loopState
    exact foldl_processUrl_store_nodup _ _ _ _ hnds
  have horder : (s3FileMap env store0).map Prod.fst = store0.map Prod.fst :=
    names_s3FileMap_of_nodup env store0 hnds
  have hseen1 : ∀ n, n ∈ (loopState env store0 urls).seen
      ↔ n ∈ urls.map filenameOf := by
    intro n
    unfold loopState
    rw [foldl_processUrl_seen]
    simp
  have hF1 : ∀ n, n ∈ (deleteResult env store0 urls).2.1.map Prod.fst
      → n ∈ urls.map filenameOf := by
    intro n hmem
    unfold deleteResult at hmem
    rw [runDeletes_mem_names_of_allOk _ _ _ _ _ _ (fun m _ _ => hdel m)] at hmem
    obtain ⟨hin, hnotdel⟩ := hmem
    unfold loopState at hin hnotdel
    rw [foldl_processUrl_store_names] at hin
    rcases hin with hst | hup
    · by_contra hns
      refine hnotdel ⟨?_, ?_⟩
      · rw [horder]
        exact hst
      · intro hsn
        exact hns ((hseen1 n).mp hsn)
    · exact upName_mem_filenames hup
  have hlook1 : ∀ u ∈ urls, ∀ c, env.fetch u = some c
      → ∃ c', lookupN (deleteResult env store0 urls).2.1 (filenameOf u) = some c'
          ∧ env.hash c' = env.hash c := by
    intro u hu c hfc
    have hcur : filenameOf u ∈ (loopState env store0 urls).seen :=
      (hseen1 _).mpr (List.mem_map_of_mem _ hu)
    have hrw : lookupN (deleteResult env store0 urls).2.1 (filenameOf u)
        = lookupN (loopState env store0 urls).store (filenameOf u) := by
      unfold deleteResult
      exact runDeletes_lookup_of_current env _ hcur _ _ _
    rw [hrw]
    unfold loopState
    rw [foldl_processUrl_store_lookup]
    cases hlast : lastPut (uploadsOf env (s3FileMap env store0) urls)
        (filenameOf u) with
    | some c' =>
      refine ⟨c', rfl, ?_⟩
      have hmem2 := lastPut_eq_some_mem hlast
      rcases mem_uploadsOf hmem2 with ⟨u', hu', huo'⟩
      rcases uploadOf_eq_some huo' with ⟨he1, he2, _, _⟩
      have huu : u' = u := nodup_map_inj hnd hu' hu he1.symm
      rw [huu, hfc] at he2
      injection he2 with hcc
      rw [hcc]
    | none =>
      have hupnone : uploadOf env (s3FileMap env store0) u = none := by
        cases huo : uploadOf env (s3FileMap env store0) u with
        | none => rfl
        | some p =>
          exfalso
          obtain ⟨pn, pc⟩ := p
          rcases uploadOf_eq_some huo with ⟨he1, _, _, _⟩
          have hm : (pn, pc) ∈ uploadsOf env (s3FileMap env store0) urls := by
            unfold uploadsOf
            exact List.mem_filterMap.mpr ⟨u, hu, huo⟩
          exact ((lastPut_eq_none_iff _ _).mp hlast (pn, pc) hm) he1
      have hnu := needUpload_false_of_uploadOf_none hfc (hput _) hupnone
      rw [needUpload_eq_false_iff] at hnu
      rw [lookupN_s3FileMap_of_nodup env store0 hnds] at hnu
      rcases Option.map_eq_some'.mp hnu with ⟨c'', hc1, hc2⟩
      exact ⟨c'', hc1, hc2⟩
  constructor
  · show (loopState env ((deleteResult env store0 urls).2.1) urls).puts = []
    unfold loopState
    rw [foldl_processUrl_puts]
    show [] ++ uploadsOf env (s3FileMap env ((deleteResult env store0 urls).2.1)) urls = []
    rw [List.nil_append]
    unfold uploadsOf
    rw [List.filterMap_eq_nil_iff]
    intro u hu
    cases hfc : env.fetch u with
    | none => exact uploadOf_of_fetch_none hfc
    | some c =>
      rcases hlook1 u hu c hfc with ⟨c', hl1, hl2⟩
      apply uploadOf_none_of_needUpload_false hfc
      rw [needUpload_eq_false_iff]
      rw [lookupN_s3FileMap_of_nodup env _ hS1nodup, hl1]
      simp [hl2]
  · show (deleteResult env ((deleteResult env store0 urls).2.1) urls).2.2 = []
    unfold deleteResult
    rw [runDeletes_dels_of_allOk _ _ _ _ _ (fun m _ _ => hdel m)]
    rw [List.nil_append, List.filter_eq_nil_iff]
    intro n hn
    have hnames2 : n ∈ (deleteResult env store0 urls).2.1.map Prod.fst := by
      rw [← names_s3FileMap_of_nodup env _ hS1nodup]
      exact hn
    have hfn : n ∈ urls.map filenameOf := hF1 n hnames2
    have hseen2 : n ∈ (loopState env ((deleteResult env store0 urls).2.1) urls).seen := by
      unfold loopState
      rw [foldl_processUrl_seen]
      exact Or.inr hfn
    simp
    exact hseen2

/-- Environment for the C5 amended-claim witness. -/
def envC5w : Env :=
  ⟨some ["a/x"], true,
   (fun u => if u = "a/x" then some [1] else none),
   fun _ => true, fun _ => true, digitHash⟩

theorem sync_idempotent_nodup_witness :
    ((["a/x"].map filenameOf).Nodup)
      ∧ ((sync envC5w ((sync envC5w []).store)).puts = []
          ∧ (sync envC5w ((sync envC5w []).store)).deletes = []) :=
  ⟨by decide,
   sync_idempotent_nodup envC5w [] ["a/x"] rfl rfl (by decide) (by decide)
     (fun _ => rfl) (fun _ => rfl)⟩

/-! ### Claim C6: duplicate names and last write wins (corrected) -/

theorem getLastQ_map {α β : Type} (f : α → β) :
    ∀ (l : List α), (l.map f).getLast? = (l.getLast?).map f := by
  intro l
  induction l using List.reverseRecOn with
  | nil => rfl
  | append_singleton t a _ =>
    rw [List.map_append, List.getLast?_append_of_ne_nil _ (by simp),
      List.getLast?_append_of_ne_nil _ (by simp)]
    rfl

/-- Environment for the C6 counterexample: two listed URLs share the
filename `f`; the earlier carries `[1]`, the later `[2]`; the bucket
already holds `f` with content `[2]`. -/
def envC6 : Env :=
  ⟨some ["a/f", "b/f"], true,
   (fun v => if v = "a/f" then some [1] else if v = "b/f" then some [2] else none),
   fun _ => true, fun _ => true, digitHash⟩

/-- C6 counterexample: the later duplicate entry (`b/f`, content `[2]`)
matches the snapshot digest of the stored `f` and is skipped, while the
earlier entry (`a/f`, content `[1]`) differs and uploads; after `sync`
the stored content under `f` is `[1]`, the EARLIER entry's content, not
the later one's — the claim of last-write-wins is false on the code. -/
theorem lww_cex :
    filenameOf "a/f" = "f" ∧ filenameOf "b/f" = "f"
      ∧ envC6.fetch "a/f" = some [1] ∧ envC6.fetch "b/f" = some [2]
      ∧ (["a/f", "b/f"].filter (fun v => decide (filenameOf v = "f"))).getLast?
          = some "b/f"
      ∧ (sync envC6 [("f", [2])]).ok = true
      ∧ lookupN (sync envC6 [("f", [2])]).store "f" = some [1]
      ∧ ([1] : Content) ≠ [2] := by
  decide

/-- C6 (amended): last write wins does hold when the duplicated name is
absent from the snapshot stored-digest map (for example, a name not yet
stored): every same-named entry then uploads in listing order, so the
stored content after `sync` is the content of the last entry in listing
order with that name.  When the name is already stored with a digest
matching a later duplicate entry, that entry is skipped and an earlier
entry's upload survives instead, as the counterexample shows. -/
theorem last_write_wins_when_absent (env : Env)
    (store0 : List (Name × Content)) (urls : List String) (n : Name)
    (hl : env.remoteListing = some urls)
    (hs : env.storeListOk = true)
    (hn : n ∉ (s3FileMap env store0).map Prod.fst)
    (hput : env.putOk n = true)
    (hfetch : ∀ u ∈ urls, filenameOf u = n → env.fetch u ≠ none)
    (hex : ∃ u, u ∈ urls ∧ filenameOf u = n) :
    ∃ u, (urls.filter (fun v => decide (filenameOf v = n))).getLast? = some u
      ∧ ∃ c, env.fetch u = some c
        ∧ lookupN (sync env store0).store n = some c := by
  rw [sync_eq_of_listing env store0 urls hl hs]
  rcases hex with ⟨u0, hu0, hf0⟩
  have hcur : n ∈ (loopState env store0 urls).seen := by
    unfold loopState
    rw [foldl_processUrl_seen]
    exact Or.inr (List.mem_map.mpr ⟨u0, hu0, hf0⟩)
  have hrw : lookupN (deleteResult env store0 urls).2.1 n
      = lookupN (loopState env store0 urls).store n := by
    unfold deleteResult
    exact runDeletes_lookup_of_current env _ hcur _ _ _
  have hupmatch : ∀ u ∈ urls, filenameOf u = n
      → ∃ c, env.fetch u = some c
          ∧ uploadOf env (s3FileMap env store0) u = some (n, c) := by
    intro u hu hfu
    rcases Option.ne_none_iff_exists'.mp (hfetch u hu hfu) with ⟨c, hc⟩
    refine ⟨c, hc, ?_⟩
    unfold uploadOf
    rw [hc, hfu]
    have hnu : needUpload (s3FileMap env store0) n (env.hash c) = true := by
      rw [needUpload_eq_true_iff, (lookupN_eq_none_iff _ _).mpr hn]
      exact fun hx => Option.noConfusion hx
    simp [hnu, hput]
  have hfiltercorr : ∀ (l : List String), (∀ u ∈ l, u ∈ urls)
      → ((uploadsOf env (s3FileMap env store0) l).filter
            (fun p => decide (p.1 = n)))
        = (l.filter (fun v => decide (filenameOf v = n))).map
            (fun u => (n, (env.fetch u).getD [])) := by
    intro l
    induction l with
    | nil => intro _; rfl
    | cons u t ih =>
      intro hsub
      have hsub' : ∀ v ∈ t, v ∈ urls := fun v hv => hsub v (List.mem_cons_of_mem _ hv)
      by_cases hfu : filenameOf u = n
      · rcases hupmatch u (hsub u (List.mem_cons_self _ _)) hfu with ⟨c, hc, huo⟩
        have hgd : (env.fetch u).getD [] = c := by rw [hc]; rfl
        simp only [uploadsOf, List.filterMap_cons, huo, List.filter_cons, hfu]
        simp [hgd]
        exact ih hsub'
      · cases huo : uploadOf env (s3FileMap env store0) u with
        | none =>
          simp only [uploadsOf, List.filterMap_cons, huo, List.filter_cons]
          simp [hfu]
          exact ih hsub'
        | some p =>
          obtain ⟨pn, pc⟩ := p
          rcases uploadOf_eq_some huo with ⟨he1, _, _, _⟩
          have hpn : ¬ (pn = n) := fun he => hfu (he1 ▸ he)
          simp only [uploadsOf, List.filterMap_cons, huo, List.filter_cons]
          simp [hfu, hpn]
          exact ih hsub'
  have hcorr := hfiltercorr urls (fun u hu => hu)
  have hne : urls.filter (fun v => decide (filenameOf v = n)) ≠ [] := by
    intro hnil
    have hm : u0 ∈ urls.filter (fun v => decide (filenameOf v = n)) :=
      List.mem_filter.mpr ⟨hu0, by simp [hf0]⟩
    rw [hnil] at hm
    cases hm
  cases hgl : (urls.filter (fun v => decide (filenameOf v = n))).getLast? with
  | none => exact absurd ((getLastQ_eq_none_iff _).mp hgl) hne
  | some ulast =>
    have hmemlast : ulast ∈ urls.filter (fun v => decide (filenameOf v = n)) :=
      List.mem_of_mem_getLast? (by rw [hgl]; exact Option.mem_some_iff.mpr rfl)
    have hulast_urls : ulast ∈ urls := List.mem_of_mem_filter hmemlast
    have hulast_name : filenameOf ulast = n := by
      simpa using (List.mem_filter.mp hmemlast).2
    rcases Option.ne_none_iff_exists'.mp
      (hfetch ulast hulast_urls hulast_name) with ⟨c, hc⟩
    refine ⟨ulast, rfl, c, hc, ?_⟩
    show lookupN (deleteResult env store0 urls).2.1 n = some c
    rw [hrw]
    unfold loopState
    rw [foldl_processUrl_store_lookup]
    have hlast : lastPut (uploadsOf env (s3FileMap env store0) urls) n = some c := by
      unfold lastPut
      rw [hcorr, getLastQ_map, hgl]
      simp [hc]
    rw [hlast]

/-- Environment for the C6 amended-claim witness: duplicates of a name
absent from the store. -/
def envC6w : Env :=
  ⟨some ["a/f", "b/f"], true,
   (fun v => if v = "a/f" then some [1] else if v = "b/f" then some [2] else none),
   fun _ => true, fun _ => true, digitHash⟩

theorem last_write_wins_when_absent_witness :
    ("f" ∉ (s3FileMap envC6w []).map Prod.fst)
      ∧ ∃ u, (["a/f", "b/f"].filter (fun v => decide (filenameOf v = "f"))).getLast?
            = some u
          ∧ ∃ c, envC6w.fetch u = some c
            ∧ lookupN (sync envC6w []).store "f" = some c :=
  ⟨by decide,
   last_write_wins_when_absent envC6w [] ["a/f", "b/f"] "f" rfl rfl
     (by decide) rfl (by decide) ⟨"a/f", by decide, by decide⟩⟩

example : lookupN (sync envC6w []).store "f" = some [2] := by decide

/-! ### Part 2: `DataUSASync` (`datausa_sync.py`)

The sync fetches two JSON documents over HTTP and stores them with
`put_object(..., Body=json.dumps(data))` where `data = response.json()`:
the stored bytes are the re-serialization of the parsed payload, not the
received body.  To reason about that pipeline we model the Python `json`
module on the JSON subset exercised here: `pythonJsonDumps` mirrors
`json.dumps` with its default separators (`", "` and `": "`), and
`pythonJsonLoads` mirrors `json.loads` on documents without string
escapes and without float/exponent literals (inputs outside the subset
parse to `none`, which the code treats like any fetch failure). -/

/-- A JSON value (integers only; the payloads the claims exercise). -/
inductive Json where
  | null : Json
  | bool : Bool → Json
  | num : Int → Json
  | str : String → Json
  | arr : List Json → Json
  | obj : List (String × Json) → Json

/-- Python `", ".join(...)` between serialized items. -/
def joinComma (l : List String) : String := String.intercalate ", " l

mutual

/-- `json.dumps` with default arguments (item separator `", "`,
key separator `": "`), restricted to strings needing no escapes. -/
def pythonJsonDumps : Json → String
  | Json.null => "null"
  | Json.bool true => "true"
  | Json.bool false => "false"
  | Json.num n => toString n
  | Json.str s => "\"" ++ s ++ "\""
  | Json.arr xs => "[" ++ joinComma (dumpsList xs) ++ "]"
  | Json.obj kvs => "\x7b" ++ joinComma (dumpsFields kvs) ++ "\x7d"

def dumpsList : List Json → List String
  | [] => []
  | x :: xs => pythonJsonDumps x :: dumpsList xs

def dumpsFields : List (String × Json) → List String
  | [] => []
  | (k, v) :: xs => ("\"" ++ k ++ "\": " ++ pythonJsonDumps v) :: dumpsFields xs

end

def isWsCh (c : Char) : Bool :=
  c = ' ' || c = '\t' || c = '\n' || c = '\r'

def skipWs (cs : List Char) : List Char := cs.dropWhile isWsCh

def digitsToNat : List Char → Nat → Nat
  | [], acc => acc
  | c :: r, acc => digitsToNat r (acc * 10 + (c.toNat - 48))

/-- Finish parsing an integer literal; a following `.`, `e` or `E`
(float syntax, outside the modelled subset) rejects. -/
def mkNum (neg : Bool) (ds : List Char) (rest : List Char) :
    Option (Json × List Char) :=
  let v : Int := (digitsToNat ds 0 : Nat)
  let val : Json := Json.num (if neg then -v else v)
  match rest with
  | [] => some (val, [])
  | c :: _ => if c = '.' ∨ c = 'e' ∨ c = 'E' then none else some (val, rest)

mutual

/-- Recursive-descent JSON value parsing (fuel-bounded). -/
def pVal : Nat → List Char → Option (Json × List Char)
  | 0, _ => none
  | fuel+1, cs =>
    match skipWs cs with
    | [] => none
    | c :: rest =>
      if c = 'n' then
        match rest with
        | 'u' :: 'l' :: 'l' :: r => some (Json.null, r)
        | _ => none
      else if c = 't' then
        match rest with
        | 'r' :: 'u' :: 'e' :: r => some (Json.bool true, r)
        | _ => none
      else if c = 'f' then
        match rest with
        | 'a' :: 'l' :: 's' :: 'e' :: r => some (Json.bool false, r)
        | _ => none
      else if c = '"' then
        let content := rest.takeWhile (fun d => decide (d ≠ '"' ∧ d ≠ '\\'))
        match rest.drop content.length with
        | '"' :: r => some (Json.str ⟨content⟩, r)
        | _ => none
      else if c = '-' then
        let ds := rest.takeWhile (fun d => d.isDigit)
        if ds.isEmpty then none
        else mkNum true ds (rest.drop ds.length)
      else if c.isDigit then
        let ds := (c :: rest).takeWhile (fun d => d.isDigit)
        mkNum false ds ((c :: rest).drop ds.length)
      else if c = '[' then
        match skipWs rest with
        | ']' :: r => some (Json.arr [], r)
        | _ =>
          match pItems fuel rest with
          | some (xs, r) => some (Json.arr xs, r)
          | none => none
      else if c = '\x7b' then
        match skipWs rest with
        | '\x7d' :: r => some (Json.obj [], r)
        | _ =>
          match pFields fuel rest with
          | some (kvs, r) => some (Json.obj kvs, r)
          | none => none
      else none

/-- Array elements after the opening bracket. -/
def pItems : Nat → List Char → Option (List Json × List Char)
  | 0, _ => none
  | fuel+1, cs =>
    match pVal fuel cs with
    | none => none
    | some (v, r) =>
      match skipWs r with
      | ',' :: r2 =>
        match pItems fuel r2 with
        | some (vs, r3) => some (v :: vs, r3)
        | none => none
      | ']' :: r2 => some ([v], r2)
      | _ => none

/-- Object fields after the opening brace. -/
def pFields : Nat → List Char → Option (List (String × Json) × List Char)
  | 0, _ => none
  | fuel+1, cs =>
    match skipWs cs with
    | '"' :: rest =>
      let content := rest.takeWhile (fun d => decide (d ≠ '"' ∧ d ≠ '\\'))
      match rest.drop content.length with
      | '"' :: r =>
        match skipWs r with
        | ':' :: r2 =>
          match pVal fuel r2 with
          | some (v, r3) =>
            match skipWs r3 with
            | ',' :: r4 =>
              match pFields fuel r4 with
              | some (kvs, r5) => some ((⟨content⟩, v) :: kvs, r5)
              | none => none
            | '\x7d' :: r4 => some ([(⟨content⟩, v)], r4)
            | _ => none
          | none => none
        | _ => none
      | _ => none
    | _ => none

end

/-- `json.loads`: parse a whole document, rejecting trailing input. -/
def pythonJsonLoads (t : String) : Option Json :=
  match pVal (t.data.length + 1) t.data with
  | some (v, r) => if skipWs r = [] then some v else none
  | none => none

/-- Python truthiness of a parsed JSON value (`if population_data:`). -/
def jsonTruthy : Json → Bool
  | Json.null => false
  | Json.bool b => b
  | Json.num n => decide (n ≠ 0)
  | Json.str s => decide (s ≠ "")
  | Json.arr xs => !xs.isEmpty
  | Json.obj kvs => !kvs.isEmpty

example : pythonJsonLoads "[1,2]" = some (Json.arr [Json.num 1, Json.num 2]) := rfl
example : pythonJsonDumps (Json.arr [Json.num 1, Json.num 2]) = "[1, 2]" := by decide
example : pythonJsonLoads "null" = some Json.null := rfl
example : pythonJsonLoads "[1, 2]" = some (Json.arr [Json.num 1, Json.num 2]) := rfl
example : pythonJsonLoads "[-3]" = some (Json.arr [Json.num (-3)]) := rfl
example : pythonJsonLoads "[1," = none := rfl
example : pythonJsonLoads "1.5" = none := rfl

/-- The population endpoint (`DataUSASync.api_url`). -/
def api_url : String :=
  "https://datausa.io/api/data?drilldowns=Nation&measures=Population"

/-- The comments endpoint (`DataUSASync.comments_api_url`). -/
def comments_api_url : String := "https://datausa.io/api/comments"

/-- Environment of one `DataUSASync.run()`: the raw response body per
endpoint — `none` models a request that failed after the session's
bounded retries — and per-file success of `put_object`. -/
structure EnvUSA where
  body : String → Option String
  putOk : String → Bool

/-- Python `s3_prefix.rstrip('/')`. -/
def rstripSlash (s : String) : String :=
  ⟨(s.data.reverse.dropWhile (fun c => decide (c = '/'))).reverse⟩

/-- The normalized prefix `s3_prefix.rstrip('/') + '/'`
(`DataUSASync.__init__`, line 36). -/
def normPfx (s : String) : String := rstripSlash s ++ "/"

/-- `DataUSASync.fetch_data` (lines 56-77): request the population
endpoint and parse the body (`response.json()`); any request or parse
failure is caught and yields `None`. -/
def fetch_data (env : EnvUSA) : Option Json :=
  (env.body api_url).bind pythonJsonLoads

/-- `DataUSASync.fetch_comments` (lines 79-100): same for the comments
endpoint. -/
def fetch_comments (env : EnvUSA) : Option Json :=
  (env.body comments_api_url).bind pythonJsonLoads

/-- `DataUSASync.upload_to_s3` (lines 102-126): `put_object` of
`json.dumps(data)` at key `s3_prefix + file_name`; on failure the
exception is re-raised (`none`). -/
def upload_to_s3 (env : EnvUSA) (pfx : String) (data : Json)
    (fileName : String) : Option (String × String) :=
  if env.putOk fileName then some (normPfx pfx ++ fileName, pythonJsonDumps data)
  else none

/-- The observable outcome of one `DataUSASync.run()`: whether `run`
returned normally (`false` means an exception propagated), the successful
puts (key, body) in order, and the endpoints requested in order. -/
structure USAOutcome where
  ok : Bool
  puts : List (String × String)
  fetched : List String

/-- The comments half of `DataUSASync.run` (lines 150-157): fetch the
comments document; if the payload is truthy, upload it — a raised upload
error ends `run` with an exception; a falsy or absent payload is
skipped. -/
def runComments (env : EnvUSA) (pfx : String) (acc : USAOutcome) : USAOutcome :=
  let acc2 : USAOutcome := { acc with fetched := acc.fetched ++ [comments_api_url] }
  match fetch_comments env with
  | some v =>
    if jsonTruthy v then
      match upload_to_s3 env pfx v "comments.json" with
      | some p => { acc2 with puts := acc2.puts ++ [p] }
      | none => { acc2 with ok := false }
    else acc2
  | none => acc2

/-- `DataUSASync.run` (lines 128-157): population first — fetched, and
uploaded when the payload is truthy; a raised upload error aborts `run`
before the comments document is ever fetched; otherwise the comments half
runs. -/
def runDataUSA (env : EnvUSA) (pfx : String) : USAOutcome :=
  match fetch_data env with
  | some v =>
    if jsonTruthy v then
      match upload_to_s3 env pfx v "response.json" with
      | some p => runComments env pfx ⟨true, [p], [api_url]⟩
      | none => ⟨false, [], [api_url]⟩
    else runComments env pfx ⟨true, [], [api_url]⟩
  | none => runComments env pfx ⟨true, [], [api_url]⟩

/-! ### Claim C7: the stored payload (corrected: re-serialized, not verbatim) -/

/-- Environment for the C7 counterexample: the population endpoint
returns the body `"[1,2]"`; the comments request fails. -/
def envC7 : EnvUSA :=
  ⟨(fun e => if e = api_url then some "[1,2]" else none), fun _ => true⟩

/-- C7 counterexample: the received population body is `"[1,2]"`, but the
stored body is `json.dumps(response.json())` - `"[1, 2]"` - which differs
byte-for-byte from the received payload; the claim that the payload is
stored verbatim is false on the code. -/
theorem verbatim_cex :
    envC7.body api_url = some "[1,2]"
      ∧ (runDataUSA envC7 "p").puts = [("p/response.json", "[1, 2]")]
      ∧ "[1, 2]" ≠ "[1,2]" := by
  refine ⟨by decide, rfl, by decide⟩

/-- C7 (amended): for every successfully fetched document whose parsed
payload is truthy, the run stores `json.dumps` of the parsed payload
under its fixed logical name — a re-serialization of the received body,
not the received bytes; storage is byte-for-byte exactly when the
received text already equals its canonical re-serialization. -/
theorem stores_reserialized_payload (env : EnvUSA) (pfx : String)
    (t : String) (v : Json)
    (hb : env.body api_url = some t)
    (hv : pythonJsonLoads t = some v)
    (ht : jsonTruthy v = true)
    (hp : env.putOk "response.json" = true) :
    ((normPfx pfx ++ "response.json", pythonJsonDumps v) ∈ (runDataUSA env pfx).puts)
      ∧ (pythonJsonDumps v = t
          → (normPfx pfx ++ "response.json", t) ∈ (runDataUSA env pfx).puts)
      ∧ (∀ t' w, env.body comments_api_url = some t'
          → pythonJsonLoads t' = some w
          → jsonTruthy w = true
          → env.putOk "comments.json" = true
          → (normPfx pfx ++ "comments.json", pythonJsonDumps w)
              ∈ (runDataUSA env pfx).puts) := by
  have hfd : fetch_data env = some v := by
    unfold fetch_data
    rw [hb]
    exact hv
  have hup : upload_to_s3 env pfx v "response.json"
      = some (normPfx pfx ++ "response.json", pythonJsonDumps v) := by
    unfold upload_to_s3
    rw [if_pos hp]
  have hrun : runDataUSA env pfx
      = runComments env pfx
          ⟨true, [(normPfx pfx ++ "response.json", pythonJsonDumps v)], [api_url]⟩ := by
    unfold runDataUSA
    rw [hfd]
    simp [ht, hup]
  have hcomm_puts : ∀ acc : USAOutcome,
      List.Sublist acc.puts (runComments env pfx acc).puts := by
    intro acc
    unfold runComments
    cases fetch_comments env with
    | none => simp
    | some w =>
      by_cases htw : jsonTruthy w = true
      · simp only [htw, if_pos]
        cases upload_to_s3 env pfx w "comments.json" with
        | none => simp
        | some p => simp
      · simp [htw]
  refine ⟨?_, ?_, ?_⟩
  · rw [hrun]
    exact (hcomm_puts _).subset (by simp)
  · intro hcanon
    rw [← hcanon, hrun]
    exact (hcomm_puts _).subset (by simp)
  · intro t' w hb' hv' htw hp'
    have hfc : fetch_comments env = some w := by
      unfold fetch_comments
      rw [hb']
      exact hv'
    have hup' : upload_to_s3 env pfx w "comments.json"
        = some (normPfx pfx ++ "comments.json", pythonJsonDumps w) := by
      unfold upload_to_s3
      rw [if_pos hp']
    rw [hrun]
    unfold runComments
    rw [hfc]
    simp [htw, hup']

/-- Environment for the C7 amended-claim witness. -/
def envC7w : EnvUSA :=
  ⟨(fun e => if e = api_url then some "[7]" else none), fun _ => true⟩

theorem stores_reserialized_payload_witness :
    envC7w.body api_url = some "[7]"
      ∧ pythonJsonLoads "[7]" = some (Json.arr [Json.num 7])
      ∧ jsonTruthy (Json.arr [Json.num 7]) = true
      ∧ (("p/response.json", pythonJsonDumps (Json.arr [Json.num 7]))
          ∈ (runDataUSA envC7w "p").puts) :=
  ⟨by decide, rfl, rfl,
   (stores_reserialized_payload envC7w "p" "[7]" (Json.arr [Json.num 7])
     (by decide) rfl rfl rfl).1⟩

/-! ### Claim C8: independence of the two documents (corrected) -/

theorem strAppendCancel : ∀ (a b c : String), a ++ b = a ++ c → b = c := by
  rintro ⟨da⟩ ⟨db⟩ ⟨dc⟩ h
  have h2 : da ++ db = da ++ dc := congrArg String.data h
  exact congrArg String.mk (List.append_cancel_left h2)

/-- Environment for the C8 counterexample: both endpoints respond, but
the population upload fails. -/
def envC8 : EnvUSA :=
  ⟨(fun e => if e = api_url then some "[1]"
     else if e = comments_api_url then some "[2]" else none),
   (fun f => decide (f ≠ "response.json"))⟩

/-- C8 counterexample: the comments endpoint has data and its own upload
would succeed, yet because the population upload raises
(`upload_to_s3` re-raises and `run` has no handler), `run` aborts: the
comments endpoint is never requested and nothing is stored.  The claim
that a failure of one document's store does not prevent the other
document from being fetched and stored is false on the code. -/
theorem upload_blocks_comments_cex :
    envC8.body comments_api_url = some "[2]"
      ∧ envC8.putOk "comments.json" = true
      ∧ envC8.putOk "response.json" = false
      ∧ runDataUSA envC8 "p" = ⟨false, [], [api_url]⟩
      ∧ comments_api_url ∉ (runDataUSA envC8 "p").fetched := by
  refine ⟨by decide, by decide, by decide, rfl, by decide⟩

/-- C8 (amended): the population document is always fetched first and its
processing does not depend on the comments document; a FETCH failure of
the population document is graceful — its store step is skipped rather
than raising, and the comments document is still fetched and stored under
its own success conditions; but an UPLOAD failure of the population
document raises and prevents the comments document from being fetched or
stored at all. -/
theorem document_independence_amended (env : EnvUSA) (pfx : String) :
    (api_url ∈ (runDataUSA env pfx).fetched)
      ∧ (fetch_data env = none
          → comments_api_url ∈ (runDataUSA env pfx).fetched
            ∧ (normPfx pfx ++ "response.json")
                ∉ ((runDataUSA env pfx).puts).map Prod.fst
            ∧ ∀ w, fetch_comments env = some w → jsonTruthy w = true
                → env.putOk "comments.json" = true
                → (normPfx pfx ++ "comments.json", pythonJsonDumps w)
                    ∈ (runDataUSA env pfx).puts)
      ∧ (∀ v, fetch_data env = some v → jsonTruthy v = true
          → env.putOk "response.json" = true
          → (normPfx pfx ++ "response.json", pythonJsonDumps v)
              ∈ (runDataUSA env pfx).puts)
      ∧ (fetch_data env = none → fetch_comments env = none
          → runDataUSA env pfx = ⟨true, [], [api_url, comments_api_url]⟩)
      ∧ (∀ v, fetch_data env = some v → jsonTruthy v = true
          → env.putOk "response.json" = false
          → runDataUSA env pfx = ⟨false, [], [api_url]⟩) := by
  have hkeyne : normPfx pfx ++ "response.json" ≠ normPfx pfx ++ "comments.json" :=
    fun he => (by decide : ("response.json" : String) ≠ "comments.json")
      (strAppendCancel _ _ _ he)
  have hcomm_fetched : ∀ acc : USAOutcome,
      List.Sublist acc.fetched (runComments env pfx acc).fetched := by
    intro acc
    unfold runComments
    cases fetch_comments env with
    | none => simp
    | some w =>
      by_cases htw : jsonTruthy w = true
      · simp only [htw, if_pos]
        cases upload_to_s3 env pfx w "comments.json" with
        | none => simp
        | some p => simp
      · simp [htw]
  have hcomm_puts : ∀ acc : USAOutcome,
      List.Sublist acc.puts (runComments env pfx acc).puts := by
    intro acc
    unfold runComments
    cases fetch_comments env with
    | none => simp
    | some w =>
      by_cases htw : jsonTruthy w = true
      · simp only [htw, if_pos]
        cases upload_to_s3 env pfx w "comments.json" with
        | none => simp
        | some p => simp
      · simp [htw]
  have hcomm_self : ∀ acc : USAOutcome,
      comments_api_url ∈ (runComments env pfx acc).fetched := by
    intro acc
    unfold runComments
    cases fetch_comments env with
    | none => simp
    | some w =>
      by_cases htw : jsonTruthy w = true
      · simp only [htw, if_pos]
        cases upload_to_s3 env pfx w "comments.json" with
        | none => simp
        | some p => simp
      · simp [htw]
  refine ⟨?_, ?_, ?_, ?_, ?_⟩
  · unfold runDataUSA
    cases hfd : fetch_data env with
    | none => exact (hcomm_fetched _).subset (by simp)
    | some v =>
      by_cases htv : jsonTruthy v = true
      · simp only [htv, if_pos]
        cases upload_to_s3 env pfx v "response.json" with
        | none => simp
        | some p => exact (hcomm_fetched _).subset (by simp)
      · simp [htv]
        exact (hcomm_fetched _).subset (by simp)
  · intro hfd
    have hrun : runDataUSA env pfx = runComments env pfx ⟨true, [], [api_url]⟩ := by
      unfold runDataUSA
      rw [hfd]
    rw [hrun]
    refine ⟨?_, ?_, ?_⟩
    · exact hcomm_self _
    · unfold runComments
      cases hfc : fetch_comments env with
      | none => simp
      | some w =>
        by_cases htw : jsonTruthy w = true
        · by_cases hpw : env.putOk "comments.json" = true
          · have hup : upload_to_s3 env pfx w "comments.json"
                = some (normPfx pfx ++ "comments.json", pythonJsonDumps w) := by
              unfold upload_to_s3
              rw [if_pos hpw]
            simp [htw, hup]
            exact hkeyne
          · have hupn : upload_to_s3 env pfx w "comments.json" = none := by
              unfold upload_to_s3
              rw [if_neg hpw]
            simp [htw, hupn]
        · simp [htw]
    · intro w hfc htw hpw
      have hup : upload_to_s3 env pfx w "comments.json"
          = some (normPfx pfx ++ "comments.json", pythonJsonDumps w) := by
        unfold upload_to_s3
        rw [if_pos hpw]
      unfold runComments
      rw [hfc]
      simp [htw, hup]
  · intro v hfd htv hpv
    have hup : upload_to_s3 env pfx v "response.json"
        = some (normPfx pfx ++ "response.json", pythonJsonDumps v) := by
      unfold upload_to_s3
      rw [if_pos hpv]
    have hrun : runDataUSA env pfx
        = runComments env pfx
            ⟨true, [(normPfx pfx ++ "response.json", pythonJsonDumps v)], [api_url]⟩ := by
      unfold runDataUSA
      rw [hfd]
      simp [htv, hup]
    rw [hrun]
    exact (hcomm_puts _).subset (by simp)
  · intro hfd hfc
    simp [runDataUSA, runComments, hfd, hfc]
  · intro v hfd htv hpv
    have hupn : upload_to_s3 env pfx v "response.json" = none := by
      unfold upload_to_s3
      rw [hpv]
      simp
    unfold runDataUSA
    rw [hfd]
    simp [htv, hupn]

/-- Environment for the C8 amended-claim witness: the population request
fails, the comments endpoint responds. -/
def envC8w : EnvUSA :=
  ⟨(fun e => if e = comments_api_url then some "[2]" else none), fun _ => true⟩

theorem document_independence_amended_witness :
    fetch_data envC8w = none
      ∧ comments_api_url ∈ (runDataUSA envC8w "p").fetched
      ∧ ("p/comments.json", pythonJsonDumps (Json.arr [Json.num 2]))
          ∈ (runDataUSA envC8w "p").puts := by
  have h := (document_independence_amended envC8w "p").2.1 rfl
  exact ⟨rfl, h.1, h.2.2 (Json.arr [Json.num 2]) rfl rfl rfl⟩

/-! ### Part 3 / Claim C9: prefix stripping in `get_s3_file_map` -/

/-- Python `key.replace(prefix, "")` (fuel-driven scan): remove the
NON-OVERLAPPING occurrences of `pat`, scanning left to right — note this
removes EVERY occurrence, not only a leading one.  Each step consumes at
least one character, so fuel equal to the scanned length suffices. -/
def pyReplaceDelFuel (pat : List Char) : Nat → List Char → List Char
  | 0, s => s
  | _+1, [] => []
  | fuel+1, c :: rest =>
    if !pat.isEmpty && pat.isPrefixOf (c :: rest)
    then pyReplaceDelFuel pat fuel ((c :: rest).drop pat.length)
    else c :: pyReplaceDelFuel pat fuel rest

/-- `obj["Key"].replace(self.S3_PREFIX, "")` from
`BLSSync.get_s3_file_map` (line 82). -/
def pyReplaceDel (s pat : List Char) : List Char :=
  pyReplaceDelFuel pat s.length s

/-- Does `pat` occur as a contiguous substring of `s`? -/
def hasSub (pat : List Char) : List Char → Bool
  | [] => pat.isEmpty
  | c :: rest => pat.isPrefixOf (c :: rest) || hasSub pat rest

/-- `BLSSync.get_s3_file_map` (lines 68-84) at the raw-key level: each
stored object's key has the prefix removed with Python `str.replace`
(every occurrence, not just the front) and is mapped to the digest of its
content. -/
def get_s3_file_map (env : Env) (pfx : List Char)
    (bucket : List (List Char × Content)) : List (List Char × Digest) :=
  bucket.foldl (fun m p => dictInsert m (pyReplaceDel p.1 pfx) (env.hash p.2)) []

/-- Character list of a string literal. -/
def chars (s : String) : List Char := s.data

/-- Environment for the C9 instances (only the digest function is used). -/
def envC9 : Env :=
  ⟨none, true, fun _ => none, fun _ => true, fun _ => true, digitHash⟩

/-- C9 counterexample: for the stored object whose key is the prefix
`pr/` followed by the name `pr/x`, the listing does NOT map the name
`pr/x` — Python `replace` removes the prefix at every occurrence, so the
mapped name is `x`.  The claim that the rest of the key is unchanged
after stripping the prefix from the front is false on the code. -/
theorem strip_cex :
    chars "pr/pr/x" = chars "pr/" ++ chars "pr/x"
      ∧ lookupN (get_s3_file_map envC9 (chars "pr/") [(chars "pr/pr/x", [7])])
          (chars "pr/x") = none
      ∧ lookupN (get_s3_file_map envC9 (chars "pr/") [(chars "pr/pr/x", [7])])
          (chars "x") = some (digitHash [7]) := by
  decide

theorem pyReplaceDelFuel_succ_cons (pat : List Char) (fuel : Nat) (c : Char)
    (rest : List Char) :
    pyReplaceDelFuel pat (fuel+1) (c :: rest)
      = if !pat.isEmpty && pat.isPrefixOf (c :: rest)
        then pyReplaceDelFuel pat fuel ((c :: rest).drop pat.length)
        else c :: pyReplaceDelFuel pat fuel rest := rfl

theorem pyReplaceDelFuel_no_occurrence (pat : List Char) :
    ∀ (fuel : Nat) (s : List Char), s.length ≤ fuel
      → hasSub pat s = false → pyReplaceDelFuel pat fuel s = s := by
  intro fuel
  induction fuel with
  | zero => intro s _ _; rfl
  | succ f ih =>
    intro s hl hocc
    cases s with
    | nil => rfl
    | cons c rest =>
      have h1a : pat.isPrefixOf (c :: rest) = false := by
        cases hpp : pat.isPrefixOf (c :: rest) with
        | false => rfl
        | true => simp [hasSub, hpp] at hocc
      have h1b : hasSub pat rest = false := by
        cases hpp : hasSub pat rest with
        | false => rfl
        | true => simp [hasSub, hpp] at hocc
      rw [pyReplaceDelFuel_succ_cons, h1a]
      simp
      exact ih rest (Nat.le_of_succ_le_succ (by simpa using hl)) h1b

theorem pyReplaceDel_strips_front (pat n : List Char)
    (hp : pat ≠ []) (hocc : hasSub pat n = false) :
    pyReplaceDel (pat ++ n) pat = n := by
  cases pat with
  | nil => exact absurd rfl hp
  | cons p0 prest =>
    show pyReplaceDelFuel (p0 :: prest) ((p0 :: prest) ++ n).length
      ((p0 :: prest) ++ n) = n
    have hshape : (p0 :: prest) ++ n = p0 :: (prest ++ n) := rfl
    rw [hshape]
    rw [show (p0 :: (prest ++ n)).length = (prest ++ n).length + 1 from rfl]
    rw [pyReplaceDelFuel_succ_cons]
    have hpre : (p0 :: prest).isPrefixOf (p0 :: (prest ++ n)) = true := by
      rw [← hshape, List.isPrefixOf_iff_prefix]
      exact List.prefix_append _ _
    rw [hpre]
    simp only [List.isEmpty_cons, Bool.not_false, Bool.and_true]
    rw [if_pos trivial]
    have hdrop : (p0 :: (prest ++ n)).drop (p0 :: prest).length = n := by
      rw [← hshape]
      exact List.drop_left _ _
    rw [hdrop]
    exact pyReplaceDelFuel_no_occurrence (p0 :: prest) (prest ++ n).length n
      (by simp [List.length_append]) hocc

/-- C9 (amended): `get_s3_file_map` maps each key to the key with EVERY
left-to-right occurrence of the prefix removed (Python `str.replace`),
not just a leading one; this equals the name — the prefix stripped from
the front with the rest unchanged — exactly in the benign case where the
prefix does not occur inside the name, as for a key like `pr/pr/x` the
mapped name is `x`, not `pr/x`. -/
theorem strip_removes_all_occurrences (env : Env) (pfx name : List Char)
    (c : Content) (h : hasSub pfx name = false) :
    pyReplaceDel (pfx ++ name) pfx = name
      ∧ get_s3_file_map env pfx [(pfx ++ name, c)] = [(name, env.hash c)] := by
  have hp : pfx ≠ [] := by
    intro he
    subst he
    cases name with
    | nil => simp [hasSub] at h
    | cons a t => simp [hasSub, List.isPrefixOf] at h
  have h1 := pyReplaceDel_strips_front pfx name hp h
  refine ⟨h1, ?_⟩
  unfold get_s3_file_map
  rw [List.foldl_cons, List.foldl_nil]
  show dictInsert [] (pyReplaceDel (pfx ++ name) pfx) (env.hash c) = _
  rw [h1]
  unfold dictInsert
  simp

theorem strip_removes_all_occurrences_witness :
    hasSub (chars "pr/") (chars "x") = false
      ∧ (pyReplaceDel (chars "pr/" ++ chars "x") (chars "pr/") = chars "x"
          ∧ get_s3_file_map envC9 (chars "pr/") [(chars "pr/" ++ chars "x", [7])]
              = [(chars "x", envC9.hash [7])]) :=
  ⟨by decide,
   strip_removes_all_occurrences envC9 (chars "pr/") (chars "x") [7] (by decide)⟩

example : pyReplaceDel (chars "pr/pr/x") (chars "pr/") = chars "x" := by decide
example : pyReplaceDel (chars "ababa x") (chars "aba") = chars "ba x" := by decide
example : pyReplaceDel (chars "abc") (chars "") = chars "abc" := by decide
